import Mathlib

/-!
Verification development for the pr-reviewer GitHub action.

The definitions below are a shallow embedding of the TypeScript sources:
  * `src/types.ts`      — the data model (severities, findings, review results, PR snapshots)
  * `src/reviewer.ts`   — the post-hoc status correction applied to the parsed model payload
  * `src/index.ts`      — `isExcluded`, `filterExcludedFiles` and the driver `run`
  * `src/auto-fixer.ts` — `isAutoFixCommit` and `autoFixSuggestions`
  * `src/github.ts`     — `GitHubClient.postReview` / `deleteExistingReviews`

Effectful code is embedded as a pure function from its inputs plus oracles for
the outcomes of external calls (model responses, file reads, git push results)
to the list of externally visible actions it performs, in order.  JavaScript
string primitives used by the sources (`startsWith`, `trim`, `indexOf`,
`lastIndexOf`, `substring`, `String.prototype.split` with a multiline
lookahead regex, and the lazy header regex match) are modelled character by
character on `List Char`.
-/

/-! ## Data model (src/types.ts) -/

/-- Severity of a review finding (`Severity` in src/types.ts). -/
inductive Severity where
  | blocking
  | suggestion
  | tech_debt
  deriving DecidableEq

/-- Overall review status (`ReviewResult.status` in src/types.ts). -/
inductive ReviewStatus where
  | approved
  | changes_requested
  deriving DecidableEq

/-- A single review finding (`ReviewFinding` in src/types.ts).
`suggested_fix` is `null`/absent in TS; embedded as `Option String`. -/
structure ReviewFinding where
  id : String
  title : String
  file : String
  line : Option Int
  severity : Severity
  description : String
  suggested_fix : Option String
  deriving DecidableEq

/-- A structured review result (`ReviewResult` in src/types.ts). -/
structure ReviewResult where
  status : ReviewStatus
  summary : String
  findings : List ReviewFinding
  deriving DecidableEq

/-- An exclusion entry of the review config (`ExcludePath` in src/types.ts). -/
structure ExcludePath where
  path : String
  reason : String
  deriving DecidableEq

/-- The slice of `ReviewConfig` (src/types.ts) consumed by the driver logic.
All other config fields only feed the prompt text and are irrelevant to the
driver control flow modelled here. -/
structure ReviewConfig where
  exclude_paths : Option (List ExcludePath)
  deriving DecidableEq

/-- Merge method of an auto-merge directive (`MergeMethod` in src/types.ts). -/
inductive MergeMethod where
  | merge
  | squash
  | rebase
  deriving DecidableEq

/-- Auto-merge directive on a PR (`PRAutoMerge` in src/types.ts). -/
structure PRAutoMerge where
  merge_method : MergeMethod
  deriving DecidableEq

/-- A changed file of the PR (`PRFile` in src/types.ts). -/
structure PRFile where
  filename : String
  status : String
  additions : Nat
  deletions : Nat
  patch : Option String
  deriving DecidableEq

/-- A commit of the PR (`PRCommit` in src/types.ts). -/
structure PRCommit where
  sha : String
  message : String
  deriving DecidableEq

/-- The PR snapshot (`PRDetails` in src/types.ts). -/
structure PRDetails where
  number : Nat
  title : String
  body : String
  diff : String
  files : List PRFile
  commits : List PRCommit
  base_branch : String
  head_branch : String
  head_sha : String
  auto_merge : Option PRAutoMerge
  deriving DecidableEq

/-! ## JavaScript string primitives -/

/-- JavaScript `s.startsWith(p)`. -/
def strStartsWith (s p : String) : Bool :=
  p.toList.isPrefixOf s.toList

/-- The four JavaScript line terminators (the characters that `.` does not
match and after which a multiline `^` matches). -/
def isLineTerminator (c : Char) : Bool :=
  c == '\n' || c == '\r' || c == Char.ofNat 0x2028 || c == Char.ofNat 0x2029

/-- Severity test `finding.severity === 'blocking'`. -/
def isBlocking (f : ReviewFinding) : Bool :=
  match f.severity with
  | Severity.blocking => true
  | _ => false

/-- Severity test `finding.severity === 'suggestion'`. -/
def isSuggestion (f : ReviewFinding) : Bool :=
  match f.severity with
  | Severity.suggestion => true
  | _ => false

/-- Severity test `finding.severity === 'tech_debt'`. -/
def isTechDebt (f : ReviewFinding) : Bool :=
  match f.severity with
  | Severity.tech_debt => true
  | _ => false

/-! ## Reviewer status correction (src/reviewer.ts, lines 96-103)

`Reviewer.review` calls the model with a forced `submit_review` tool, parses
the tool-call arguments into a `ReviewResult`, and then applies a post-hoc
correction before returning:

    const hasBlocking = result.findings.some((finding) => finding.severity === 'blocking');
    if (hasBlocking && result.status === 'approved') {
      result.status = 'changes_requested';
    }

The model call and the parse are fallible; the driver model below receives
their outcome as an `Except` oracle and applies `Reviewer.review` to the
parsed raw payload. -/

/-- Status test `result.status === 'approved'`. -/
def statusIsApproved (s : ReviewStatus) : Bool :=
  match s with
  | ReviewStatus.approved => true
  | ReviewStatus.changes_requested => false

/-- The pure tail of `Reviewer.review` (src/reviewer.ts): the post-hoc status
correction applied to the parsed raw model payload. -/
def Reviewer.review (raw : ReviewResult) : ReviewResult :=
  let hasBlocking := raw.findings.any isBlocking
  if hasBlocking && statusIsApproved raw.status then
    { raw with status := ReviewStatus.changes_requested }
  else
    raw

/-! ## Diff partitioning (src/index.ts, lines 10-48)

`filterExcludedFiles` splits the unified diff with
`diff.split(/^(?=diff --git )/m)`: the string is cut immediately before every
occurrence of `"diff --git "` that sits at a line start (after a line
terminator), except at position 0, and the final piece is always emitted.
Each section is then matched against `/^diff --git a\/(.+?) b\//`: a lazy,
string-start-anchored match whose captured path is the shortest nonempty run
of non-line-terminator characters followed by `" b/"`.  Sections without such
a header are kept (fail open). -/

/-- The split marker `"diff --git "` of the lookahead regex. -/
def diffGitMark : List Char := "diff --git ".toList

/-- Character scanner realising `diff.split(/^(?=diff --git )/m)`.
`ls` records whether the scanner sits at a line start (position 0 or right
after a line terminator); `cur` is the current section accumulated in
reverse.  A cut happens at every line-start occurrence of `diffGitMark`
except at position 0 (JavaScript `split` never emits a leading empty piece
for a zero-width match at index 0); the final piece is always emitted. -/
def splitGo (cs : List Char) (ls : Bool) (cur : List Char) : List (List Char) :=
  match cs with
  | [] => [cur.reverse]
  | c :: rest =>
    if ls && !cur.isEmpty && diffGitMark.isPrefixOf (c :: rest) then
      cur.reverse :: splitGo rest (isLineTerminator c) [c]
    else
      splitGo rest (isLineTerminator c) (c :: cur)

/-- `diff.split(/^(?=diff --git )/m)` on the character list of the diff. -/
def splitDiffList (cs : List Char) : List (List Char) :=
  splitGo cs true []

/-- The header anchor `"diff --git a/"` of the per-section regex. -/
def headerMark : List Char := "diff --git a/".toList

/-- The literal `" b/"` that terminates the lazily captured path. -/
def pathStop : List Char := " b/".toList

/-- Lazy scan for the capture group `(.+?)` of
`/^diff --git a\/(.+?) b\//`: consume at least one non-line-terminator
character, and after each consumed character first try to match `" b/"`.
`acc` is the reversed path consumed so far. -/
def findPathAux : List Char → List Char → Option (List Char)
  | [], _ => none
  | c :: rest, acc =>
    if isLineTerminator c then none
    else if pathStop.isPrefixOf rest then some (c :: acc).reverse
    else findPathAux rest (c :: acc)

/-- `section.match(/^diff --git a\/(.+?) b\//)`, returning the captured path
or `none` when the section header does not match. -/
def sectionHeaderPath (s : List Char) : Option (List Char) :=
  if headerMark.isPrefixOf s then findPathAux (s.drop headerMark.length) []
  else none

/-- `isExcluded` (src/index.ts, lines 10-12). -/
def isExcluded (filename : String) (excludePaths : List ExcludePath) : Bool :=
  excludePaths.any (fun exclusion => strStartsWith filename exclusion.path)

/-- The per-section keep decision of `filterExcludedFiles`: a section without
a parseable header is kept, one whose header path is excluded is dropped. -/
def keepSection (excludePaths : List ExcludePath) (s : List Char) : Bool :=
  match sectionHeaderPath s with
  | none => true
  | some p => !isExcluded (String.mk p) excludePaths

/-- Result record of `filterExcludedFiles` (`FilterResult` in src/index.ts). -/
structure FilterResult where
  files : List PRFile
  diff : String
  excludedFilenames : List String
  deriving DecidableEq

/-- `filterExcludedFiles` (src/index.ts, lines 20-48). -/
def filterExcludedFiles (files : List PRFile) (diff : String)
    (excludePaths : List ExcludePath) : FilterResult :=
  if excludePaths.length = 0 then
    { files := files, diff := diff, excludedFilenames := [] }
  else
    let excludedFilenames :=
      (files.filter (fun file => isExcluded file.filename excludePaths)).map
        (fun file => file.filename)
    let filteredFiles :=
      files.filter (fun file => !isExcluded file.filename excludePaths)
    let filteredDiff :=
      ((splitDiffList diff.toList).filter (keepSection excludePaths)).flatten
    { files := filteredFiles, diff := String.mk filteredDiff,
      excludedFilenames := excludedFilenames }

/-! ## Structure of the diff split

The following predicates capture the shape of the section list produced by
`splitDiffList`: every section after the first starts with `diffGitMark`,
no section contains another line-start occurrence of `diffGitMark` strictly
inside it, and every section but the last ends with a line terminator.
These invariants make the split stable under re-splitting the concatenation
of any subsequence of sections, which is what the exclusion-filter proofs
need. -/

/-- The line-start state of the scanner after reading `a`, having started in
line-start state `ls`. -/
def lsAfter (a : List Char) (ls : Bool) : Bool :=
  match a with
  | [] => ls
  | c :: rest => lsAfter rest (isLineTerminator c)

/-- Whether a nonempty list ends with a line terminator (`false` on `[]`). -/
def endsLT (s : List Char) : Bool :=
  lsAfter s false

/-- The line-start state determined by the reversed current section: at the
start of a section the scanner is at position 0 (state `true`), afterwards
the state is decided by the previously read character, the head of `cur`. -/
def lsOfCur (cur : List Char) : Bool :=
  match cur.head? with
  | none => true
  | some c => isLineTerminator c

/-- No line-start occurrence of `diffGitMark` strictly inside `s` (the
occurrence at position 0, if any, is not constrained). -/
def noBoundary (s : List Char) : Prop :=
  ∀ a b : List Char, s = a ++ b → b ≠ [] → endsLT a = true →
    diffGitMark.isPrefixOf b = false

/-- Well-formed tail of a section list: every listed section starts with
`diffGitMark`, has no internal line-start mark, and all but the last end
with a line terminator. -/
inductive Sects : List (List Char) → Prop where
  | nil : Sects []
  | last (s : List Char) (hm : diffGitMark.isPrefixOf s = true)
      (hb : noBoundary s) : Sects [s]
  | cons (s t : List Char) (rest : List (List Char))
      (hm : diffGitMark.isPrefixOf s = true) (hb : noBoundary s)
      (he : endsLT s = true) (htl : Sects (t :: rest)) :
      Sects (s :: t :: rest)

/-- Sample exclusion list used by concrete witnesses. -/
def exW : List ExcludePath := [{ path := "dist/", reason := "generated" }]

/-- Sample exclusion prefix used by concrete witnesses. -/
def pW : ExcludePath := { path := "dist/", reason := "generated" }

/-- Sample excluded file used by concrete witnesses. -/
def fileW1 : PRFile :=
  { filename := "dist/app.js", status := "modified", additions := 1,
    deletions := 1, patch := none }

/-- Sample in-scope file used by concrete witnesses. -/
def fileW2 : PRFile :=
  { filename := "src/a.ts", status := "modified", additions := 1,
    deletions := 1, patch := none }

/-- Sample two-section unified diff used by concrete witnesses. -/
def diffW : String :=
  "diff --git a/dist/app.js b/dist/app.js\n-x\n+y\ndiff --git a/src/a.ts b/src/a.ts\n-1\n+2\n"

/-! ## Auto-fix engine (src/auto-fixer.ts)

`autoFixSuggestions` takes the suggestion findings, discards those without a
truthy `suggested_fix` (JavaScript falsiness: `null`, `undefined` and the
empty string), groups the rest by target file in first-insertion order (a JS
`Map`), and processes each group: read the file, call the model, strip a
leading/trailing markdown fence from the response, and overwrite the file
when the trimmed result differs from the trimmed original.  Per-group
failures are caught and only skip that group.  If at least one file changed
it commits and pushes; a missing head ref or a failed git sequence yields
`false`.  External effects are modelled as a trace of `FixAction`s driven by
oracles in `FixEnv`: `read`/`model` give the outcomes of `readFile` and of
the completion call keyed by file path (`Except.error` = the call threw,
`Except.ok none` = no content in the response), `headRef?` is the PR head
branch from the event payload and `pushOk` the outcome of the git
config/add/commit/push sequence. -/

/-- The markdown fence `"```"`. -/
def fence : List Char := "```".toList

/-- JavaScript `s.indexOf(c)` for a single character (`-1` when absent). -/
def indexOfChar (cs : List Char) (c : Char) : Int :=
  match cs.findIdx? (fun d => d == c) with
  | some i => (i : Int)
  | none => -1

/-- All start positions of fence occurrences in `cs`. -/
def fenceStarts (cs : List Char) : List Nat :=
  (List.range cs.length).filter (fun i => fence.isPrefixOf (cs.drop i))

/-- JavaScript `s.lastIndexOf('```')` (`-1` when absent). -/
def lastFenceIdx (cs : List Char) : Int :=
  match (fenceStarts cs).getLast? with
  | some i => (i : Int)
  | none => -1

/-- The defensive fence stripping of `autoFixSuggestions`
(src/auto-fixer.ts, lines 75-82): when the content starts with a fence and
the last fence lies after the first newline, keep only the characters
between the first newline and the last fence (JavaScript
`substring(firstNewline + 1, lastFence)`). -/
def stripFences (content : String) : String :=
  let cs := content.toList
  if fence.isPrefixOf cs then
    let firstNewline := indexOfChar cs '\n'
    let lastFence := lastFenceIdx cs
    if firstNewline < lastFence then
      String.mk ((cs.take lastFence.toNat).drop (firstNewline + 1).toNat)
    else content
  else content

/-- The characters removed by JavaScript `String.prototype.trim`:
whitespace (tab, VT, FF, space, NBSP, BOM and the Unicode space separators)
and the four line terminators. -/
def isJsWhitespace (c : Char) : Bool :=
  c == '\t' || c == '\n' || c == Char.ofNat 0x0B || c == Char.ofNat 0x0C ||
  c == '\r' || c == ' ' || c == Char.ofNat 0xA0 || c == Char.ofNat 0x1680 ||
  (decide (Char.ofNat 0x2000 ≤ c) && decide (c ≤ Char.ofNat 0x200A)) ||
  c == Char.ofNat 0x2028 || c == Char.ofNat 0x2029 ||
  c == Char.ofNat 0x202F || c == Char.ofNat 0x205F ||
  c == Char.ofNat 0x3000 || c == Char.ofNat 0xFEFF

/-- JavaScript `s.trim()`. -/
def jsTrim (s : String) : String :=
  String.mk (((s.toList.dropWhile isJsWhitespace).reverse.dropWhile
    isJsWhitespace).reverse)

/-- The fixed auto-fix commit message start (`AUTO_FIX_COMMIT_PREFIX` in
src/auto-fixer.ts). -/
def autoFixCommitMark : String := "fix: auto-fix review suggestions"

/-- `isAutoFixCommit` (src/auto-fixer.ts, lines 13-15). -/
def isAutoFixCommit (commitMessage : String) : Bool :=
  strStartsWith commitMessage autoFixCommitMark

/-- JavaScript truthiness of `finding.suggested_fix`
(`if (!finding.suggested_fix) continue`): `null`/absent and the empty string
are falsy. -/
def truthyFix (f : ReviewFinding) : Bool :=
  match f.suggested_fix with
  | none => false
  | some s => !(s == "")

/-- Insertion into the JS `Map`-backed file groups: append to an existing
key, otherwise add a new key at the end (insertion order). -/
def insertGroup : List (String × List ReviewFinding) → String → ReviewFinding →
    List (String × List ReviewFinding)
  | [], file, f => [(file, [f])]
  | (k, v) :: rest, file, f =>
    if k == file then (k, v ++ [f]) :: rest
    else (k, v) :: insertGroup rest file f

/-- The file grouping of `autoFixSuggestions` (src/auto-fixer.ts, lines
27-33): findings without a truthy `suggested_fix` are discarded, the rest
are grouped by `finding.file`. -/
def fileGroups (suggestions : List ReviewFinding) :
    List (String × List ReviewFinding) :=
  suggestions.foldl
    (fun gs f => if truthyFix f then insertGroup gs f.file f else gs) []

/-- Oracles for the external calls made by `autoFixSuggestions`. -/
structure FixEnv where
  read : String → Except String String
  model : String → Except String (Option String)
  headRef? : Option String
  prNumber? : Option Nat
  pushOk : Bool

/-- Externally visible actions of `autoFixSuggestions`, in order. -/
inductive FixAction where
  | readFile (path : String)
  | modelCall (path : String)
  | writeFile (path : String) (content : String)
  | gitCommitPush (ref : String)
  deriving DecidableEq

/-- One iteration of the per-file loop of `autoFixSuggestions`
(src/auto-fixer.ts, lines 43-92): any throw inside the iteration is caught
and only skips this file; a file is written (and counted) exactly when the
model produced truthy content whose fence-stripped, trimmed form differs
from the trimmed original. -/
def processGroup (env : FixEnv) (g : String × List ReviewFinding) :
    Bool × List FixAction :=
  match env.read g.1 with
  | Except.error _ => (false, [FixAction.readFile g.1])
  | Except.ok originalContent =>
    match env.model g.1 with
    | Except.error _ => (false, [FixAction.readFile g.1, FixAction.modelCall g.1])
    | Except.ok none => (false, [FixAction.readFile g.1, FixAction.modelCall g.1])
    | Except.ok (some fixedContent) =>
      if fixedContent == "" then
        (false, [FixAction.readFile g.1, FixAction.modelCall g.1])
      else
        let cleanContent := stripFences fixedContent
        if jsTrim cleanContent == jsTrim originalContent then
          (false, [FixAction.readFile g.1, FixAction.modelCall g.1])
        else
          (true, [FixAction.readFile g.1, FixAction.modelCall g.1,
                  FixAction.writeFile g.1 cleanContent])

/-- `autoFixSuggestions` (src/auto-fixer.ts, lines 17-121), returning the
boolean result (a fix commit was pushed) and the action trace. -/
def autoFixSuggestions (env : FixEnv) (suggestions : List ReviewFinding) :
    Bool × List FixAction :=
  if suggestions.length = 0 then (false, [])
  else
    let groups := fileGroups suggestions
    if groups.length = 0 then (false, [])
    else
      let processed := groups.map (processGroup env)
      let actions := (processed.map Prod.snd).flatten
      let filesChanged := (processed.filter Prod.fst).length
      if filesChanged = 0 then (false, actions)
      else
        match env.headRef? with
        | none => (false, actions)
        | some headRef =>
          if env.pushOk then
            (true, actions ++ [FixAction.gitCommitPush headRef])
          else
            (false, actions ++ [FixAction.gitCommitPush headRef])

/-! ## Review posting (src/github.ts, lines 69-96 and 149-171)

`postReview` computes the review body once (`formatReviewComment`), dismisses
every prior review whose body contains the sentinel
`'<!-- PR_REVIEWER_BOT -->'` (a failed dismissal is swallowed), then: for an
`approved` result it first attempts a review with event `APPROVE` and, if
that call throws, swallows the error and posts the same body with event
`COMMENT`; for a `changes_requested` result it posts with event
`REQUEST_CHANGES`.  The body string is taken as an input of the model (in the
source it is the value `formatReviewComment(this.repo, prNumber, result)`,
computed once and reused for every `createReview` call); `approveOk` is the
oracle for whether the `APPROVE` call succeeds, and `dismissOk` the per-id
oracle for dismissals, which the trace provably never depends on because the
source swallows dismissal failures. -/

/-- An existing review on the PR, as consumed by `deleteExistingReviews`. -/
structure GhReview where
  id : Nat
  body : Option String
  deriving DecidableEq

/-- Oracles for the external calls made by `postReview`. -/
structure GhEnv where
  reviews : List GhReview
  approveOk : Bool
  dismissOk : Nat → Bool

/-- Review events of the GitHub createReview call. -/
inductive ReviewEvent where
  | APPROVE
  | COMMENT
  | REQUEST_CHANGES
  deriving DecidableEq

/-- Externally visible actions of `postReview`, in order.  `createReview`
records every attempted call, including the `APPROVE` attempt that throws
when the token cannot approve. -/
inductive GhAction where
  | listReviews
  | dismissReview (id : Nat)
  | createReview (event : ReviewEvent) (body : String)
  deriving DecidableEq

/-- The sentinel marker embedded in every bot review body. -/
def botMarker : String := "<!-- PR_REVIEWER_BOT -->"

/-- JavaScript `haystack.includes(needle)`. -/
def strIncludes (haystack needle : String) : Bool :=
  (List.range (haystack.toList.length + 1)).any
    (fun i => needle.toList.isPrefixOf (haystack.toList.drop i))

/-- `review.body?.includes('<!-- PR_REVIEWER_BOT -->')` with a `null` body
counting as no match. -/
def containsMarker (body : Option String) : Bool :=
  match body with
  | none => false
  | some b => strIncludes b botMarker

/-- `deleteExistingReviews` (src/github.ts, lines 149-171): list the reviews
and attempt to dismiss every one bearing the sentinel marker; dismissal
failures are swallowed, so the trace does not depend on `dismissOk`. -/
def deleteExistingReviews (env : GhEnv) : List GhAction :=
  GhAction.listReviews ::
    (env.reviews.filter (fun r => containsMarker r.body)).map
      (fun r => GhAction.dismissReview r.id)

/-- `GitHubClient.postReview` (src/github.ts, lines 69-96) as an action
trace.  `body` is the review body computed once by `formatReviewComment`. -/
def postReview (env : GhEnv) (result : ReviewResult) (body : String) :
    List GhAction :=
  deleteExistingReviews env ++
    (if statusIsApproved result.status then
      (if env.approveOk then [GhAction.createReview ReviewEvent.APPROVE body]
       else [GhAction.createReview ReviewEvent.APPROVE body,
             GhAction.createReview ReviewEvent.COMMENT body])
     else [GhAction.createReview ReviewEvent.REQUEST_CHANGES body])

/-! ## The driver (src/index.ts, lines 50-184)

`run` is modelled as the ordered trace of its externally visible actions,
driven by the pure inputs and two oracles: `reviewOutcome` is the outcome of
the model call and payload parse inside `Reviewer.review` (`Except.error` =
the call threw or no structured tool call came back), and `autoFixPushed`
the boolean returned by `autoFixSuggestions` when the driver invokes it.
Collaborator-gateway calls (label creation, PR fetch, status updates,
review posting, issue filing, merging) are recorded as actions.  A thrown
review error is caught by the inner handler (status `error`) and re-thrown
to the outer handler (`core.setFailed`), which is the non-zero process
outcome. -/

/-- Commit status states used by `setCommitStatus`. -/
inductive CommitState where
  | error
  | success
  | failure
  | pending
  deriving DecidableEq

/-- Externally visible actions of one `run`, in order. -/
inductive RunAction where
  | ensureLabels
  | getPRDetails (prNumber : Nat)
  | callReviewer
  | callAutoFix (suggestions : List ReviewFinding)
  | createIssue (finding : ReviewFinding)
  | postReview (prNumber : Nat) (result : ReviewResult)
  | setCommitStatus (sha : String) (state : CommitState) (description : String)
  | mergePR (prNumber : Nat) (method : MergeMethod)
  | setFailed (message : String)
  deriving DecidableEq

/-- Inputs and oracles of one `run`. -/
structure RunInputs where
  prNumber? : Option Nat
  autoFixEnabled : Bool
  autoMergeEnabled : Bool
  config : ReviewConfig
  pr : PRDetails
  reviewOutcome : Except String ReviewResult
  autoFixPushed : Bool

/-- The exclusion filtering step of `run` (src/index.ts, lines 76-85): the
filter runs only when `config.exclude_paths` is present and nonempty, and
narrows the snapshot while collecting the excluded filenames. -/
def scopedPR (i : RunInputs) : PRDetails × List String :=
  match i.config.exclude_paths with
  | some ps =>
    if 0 < ps.length then
      let filtered := filterExcludedFiles i.pr.files i.pr.diff ps
      ({ i.pr with files := filtered.files, diff := filtered.diff },
        filtered.excludedFilenames)
    else (i.pr, [])
  | none => (i.pr, [])

/-- The auto-approval summary posted on the all-excluded path. -/
def excludedSummary (n : Nat) : String :=
  "All " ++ toString n ++
    " file(s) in this PR match exclude_paths and are exempt from application-level review. Auto-approved."

/-- The merge attempt (`if (autoMergeEnabled && pr.auto_merge)`). -/
def mergeSteps (enabled : Bool) (pr : PRDetails) (n : Nat) : List RunAction :=
  if enabled then
    match pr.auto_merge with
    | some am => [RunAction.mergePR n am.merge_method]
    | none => []
  else []

/-- The issue-filing / review-posting / final-status tail of `run`
(src/index.ts, lines 139-170). -/
def postingSteps (i : RunInputs) (n : Nat) (pr : PRDetails)
    (result : ReviewResult) : List RunAction :=
  let blocking := result.findings.filter isBlocking
  let techDebt := result.findings.filter isTechDebt
  techDebt.map RunAction.createIssue ++
    [RunAction.postReview n result,
     RunAction.setCommitStatus pr.head_sha
       (if 0 < blocking.length then CommitState.failure else CommitState.success)
       (if 0 < blocking.length then
          toString blocking.length ++ " blocking issue(s) found"
        else "Review passed")] ++
    (if 0 < blocking.length then
      [RunAction.setFailed ("PR review found " ++ toString blocking.length ++
        " blocking issue(s)")]
     else mergeSteps i.autoMergeEnabled pr n)

/-- The part of `run` after a successful review (src/index.ts, lines
114-170): status correction, severity partition, the guarded auto-fix
attempt, and the posting tail. -/
def reviewedSteps (i : RunInputs) (n : Nat) (pr : PRDetails)
    (isAutoFix : Bool) (raw : ReviewResult) : List RunAction :=
  let result := Reviewer.review raw
  let suggestions := result.findings.filter isSuggestion
  if i.autoFixEnabled && !isAutoFix && decide (0 < suggestions.length) then
    RunAction.callAutoFix suggestions ::
      (if i.autoFixPushed then
        [RunAction.setCommitStatus pr.head_sha CommitState.pending
          "Auto-fix applied, awaiting re-review"]
       else postingSteps i n pr result)
  else postingSteps i n pr result

/-- `run` (src/index.ts, lines 50-184) as an action trace. -/
def run (i : RunInputs) : List RunAction :=
  match i.prNumber? with
  | none => [RunAction.setFailed "This action must be triggered by a pull_request event"]
  | some n =>
    let narrowed := scopedPR i
    let pr := narrowed.1
    if pr.files.length = 0 then
      [RunAction.ensureLabels, RunAction.getPRDetails n,
       RunAction.postReview n
         { status := ReviewStatus.approved,
           summary := excludedSummary narrowed.2.length, findings := [] },
       RunAction.setCommitStatus pr.head_sha CommitState.success
         "All files excluded — auto-approved"] ++
        mergeSteps i.autoMergeEnabled pr n
    else
      let latestCommitMessage :=
        ((pr.commits.getLast?).map PRCommit.message).getD ""
      let isAutoFix := isAutoFixCommit latestCommitMessage
      [RunAction.ensureLabels, RunAction.getPRDetails n,
       RunAction.setCommitStatus pr.head_sha CommitState.pending
         "Review in progress...",
       RunAction.callReviewer] ++
        match i.reviewOutcome with
        | Except.error e =>
          [RunAction.setCommitStatus pr.head_sha CommitState.error
            "Review failed unexpectedly",
           RunAction.setFailed ("PR review failed: " ++ e)]
        | Except.ok raw => reviewedSteps i n pr isAutoFix raw

/-- Whether an action is an `autoFixSuggestions` invocation. -/
def isCallAutoFix (a : RunAction) : Bool :=
  match a with
  | RunAction.callAutoFix _ => true
  | _ => false

/-- Erase the auto-fix invocations from a trace. -/
def eraseAutoFix (tr : List RunAction) : List RunAction :=
  tr.filter (fun a => !isCallAutoFix a)

/-- The loop-guard test of `run`: whether the most recent commit of the
(narrowed) snapshot is an auto-fix commit. -/
def latestIsAutoFix (i : RunInputs) : Bool :=
  isAutoFixCommit ((((scopedPR i).1.commits.getLast?).map PRCommit.message).getD "")

/-- The suggestion findings of the corrected review result. -/
def suggestionsOf (raw : ReviewResult) : List ReviewFinding :=
  (Reviewer.review raw).findings.filter isSuggestion

/-- The blocking findings of the corrected review result. -/
def blockingOf (raw : ReviewResult) : List ReviewFinding :=
  (Reviewer.review raw).findings.filter isBlocking

/-- Sample first commit used by concrete witnesses. -/
def commitW0 : PRCommit := { sha := "a0", message := "feat: start" }

/-- Sample auto-fix commit used by concrete witnesses. -/
def commitW : PRCommit :=
  { sha := "abc123",
    message := "fix: auto-fix review suggestions\n\nAuto-fixed 1 file(s) from PR #1 review" }

/-- Sample blocking finding used by concrete witnesses. -/
def findingBlockW : ReviewFinding :=
  { id := "B1", title := "missing auth", file := "src/a.ts", line := some 3,
    severity := Severity.blocking, description := "d", suggested_fix := none }

/-- Sample raw result (mis-reported `approved` with a blocking finding). -/
def rawApprovedBlockingW : ReviewResult :=
  { status := ReviewStatus.approved, summary := "ok",
    findings := [findingBlockW] }

/-- Sample PR snapshot used by concrete witnesses. -/
def prW : PRDetails :=
  { number := 1, title := "Add feature", body := "", diff := diffW,
    files := [fileW1, fileW2], commits := [commitW0, commitW],
    base_branch := "main", head_branch := "feature-1", head_sha := "abc123",
    auto_merge := some { merge_method := MergeMethod.squash } }

/-- Sample run inputs used by concrete witnesses. -/
def iW : RunInputs :=
  { prNumber? := some 1, autoFixEnabled := true, autoMergeEnabled := true,
    config := { exclude_paths := some exW }, pr := prW,
    reviewOutcome := Except.ok rawApprovedBlockingW, autoFixPushed := false }

/-- Sample PR snapshot whose only changed file is excluded. -/
def prW4 : PRDetails :=
  { number := 2, title := "Regenerate bundle", body := "",
    diff := "diff --git a/dist/app.js b/dist/app.js\n-x\n+y\n",
    files := [fileW1], commits := [commitW0],
    base_branch := "main", head_branch := "feature-2", head_sha := "def456",
    auto_merge := some { merge_method := MergeMethod.squash } }

/-- Sample run inputs with every changed file excluded. -/
def iW4 : RunInputs :=
  { prNumber? := some 2, autoFixEnabled := true, autoMergeEnabled := true,
    config := { exclude_paths := some exW }, pr := prW4,
    reviewOutcome := Except.ok rawApprovedBlockingW, autoFixPushed := false }

/-- Sample auto-fix oracles used by concrete witnesses. -/
def fixEnvW : FixEnv :=
  { read := fun _ => Except.ok "orig", model := fun _ => Except.ok (some "fixed"),
    headRef? := some "feature-1", prNumber? := some 1, pushOk := true }

/-- Sample auto-fix oracles with no resolvable head branch. -/
def fixEnvNoHeadW : FixEnv :=
  { read := fun _ => Except.ok "orig", model := fun _ => Except.ok (some "fixed"),
    headRef? := none, prNumber? := some 1, pushOk := true }

/-- Sample suggestion finding without a concrete fix. -/
def findingNullFixW : ReviewFinding :=
  { id := "S9", title := "style", file := "src/b.ts", line := none,
    severity := Severity.suggestion, description := "d", suggested_fix := none }

/-- Sample suggestion finding with a concrete fix. -/
def findingFixW : ReviewFinding :=
  { id := "S1", title := "use const", file := "src/a.ts", line := some 3,
    severity := Severity.suggestion, description := "d",
    suggested_fix := some "use const" }

/-- Sample existing reviews used by the C10 witness: one bot review bearing
the sentinel, one human review. -/
def ghEnvW : GhEnv :=
  { reviews :=
      [{ id := 11, body := some "<!-- PR_REVIEWER_BOT -->\nold review" },
       { id := 12, body := some "LGTM" },
       { id := 13, body := none }],
    approveOk := false,
    dismissOk := fun _ => true }

/-- Sample approved result with no findings. -/
def approvedEmptyW : ReviewResult :=
  { status := ReviewStatus.approved, summary := "clean", findings := [] }

/-! ## Properties and claim theorems -/

/-- C1: if any finding of the parsed payload has severity `blocking`, the
result returned by `Reviewer.review` has status `changes_requested`,
regardless of the raw status (in particular a raw `approved` is rewritten). -/
theorem c1_status_correction (raw : ReviewResult)
    (h : ∃ f ∈ raw.findings, f.severity = Severity.blocking) :
    (Reviewer.review raw).status = ReviewStatus.changes_requested := by
  obtain ⟨f, hf, hsev⟩ := h
  have hany : raw.findings.any isBlocking = true := by
    refine List.any_eq_true.mpr ⟨f, hf, ?_⟩
    simp [isBlocking, hsev]
  unfold Reviewer.review
  cases hst : raw.status with
  | approved =>
      simp [hany, statusIsApproved, hst]
  | changes_requested =>
      simp [hany, statusIsApproved, hst]

/-- Witness for C1 at a concrete payload: one blocking finding, raw status
`approved`. -/
theorem c1_status_correction_witness :
    (∃ f ∈ ({ status := ReviewStatus.approved, summary := "ok",
              findings := [{ id := "B1", title := "t", file := "a.ts",
                             line := none, severity := Severity.blocking,
                             description := "d", suggested_fix := none }] } :
              ReviewResult).findings, f.severity = Severity.blocking) ∧
    (Reviewer.review
        { status := ReviewStatus.approved, summary := "ok",
          findings := [{ id := "B1", title := "t", file := "a.ts",
                         line := none, severity := Severity.blocking,
                         description := "d", suggested_fix := none }] }).status =
      ReviewStatus.changes_requested := by
  refine ⟨⟨_, List.mem_singleton.mpr rfl, rfl⟩, ?_⟩
  exact c1_status_correction _ ⟨_, List.mem_singleton.mpr rfl, rfl⟩

theorem diffGitMark_ne_nil : diffGitMark ≠ [] := by decide

theorem diffGitMark_no_lt : ∀ c ∈ diffGitMark, isLineTerminator c = false := by
  decide

theorem lsAfter_append (a b : List Char) (ls : Bool) :
    lsAfter (a ++ b) ls = lsAfter b (lsAfter a ls) := by
  induction a generalizing ls with
  | nil => rfl
  | cons c a' ih => exact ih (isLineTerminator c)

theorem lsAfter_of_ne_nil (a : List Char) (ha : a ≠ []) (ls ls' : Bool) :
    lsAfter a ls = lsAfter a ls' := by
  cases a with
  | nil => exact absurd rfl ha
  | cons c a' => rfl

theorem endsLT_eq_lsAfter (a : List Char) (ha : a ≠ []) (ls : Bool) :
    endsLT a = lsAfter a ls :=
  lsAfter_of_ne_nil a ha false ls

theorem endsLT_mem : ∀ s : List Char, endsLT s = true →
    ∃ d ∈ s, isLineTerminator d = true := by
  intro s
  induction s with
  | nil => intro h; exact absurd h (by simp [endsLT, lsAfter])
  | cons c rest ih =>
      intro h
      cases rest with
      | nil => exact ⟨c, by simp, by simpa [endsLT, lsAfter] using h⟩
      | cons d r =>
          obtain ⟨e, he, helt⟩ := ih h
          exact ⟨e, List.mem_cons_of_mem c he, helt⟩

theorem endsLT_reverse_of_head (cur : List Char) (c : Char)
    (hc : cur.head? = some c) (hlt : isLineTerminator c = true) :
    endsLT cur.reverse = true := by
  cases cur with
  | nil => simp at hc
  | cons d cur' =>
      have hdc : d = c := by simpa using hc
      subst hdc
      show lsAfter ((d :: cur').reverse) false = true
      rw [List.reverse_cons, lsAfter_append]
      simpa [lsAfter] using hlt

/-- A nonempty suffix of a list ending in a line terminator also ends in a
line terminator. -/
theorem endsLT_of_suffix (x b : List Char) (hb : b ≠ [])
    (h : endsLT (x ++ b) = true) : endsLT b = true := by
  unfold endsLT at h ⊢
  rw [lsAfter_append] at h
  rw [lsAfter_of_ne_nil b hb false (lsAfter x false)]
  exact h

/-- Shape of the output of `splitGo`: the first emitted piece extends the
current partial section `cur`, the remaining pieces are well-formed sections,
the pieces concatenate back to the input, the first piece ends with a line
terminator whenever more pieces follow, and the extension `pre` contains no
line-start occurrence of `diffGitMark` that the scanner could have cut at. -/
theorem splitGo_spec (cs : List Char) :
    ∀ ls cur, ls = lsOfCur cur →
    ∃ pre ss,
      splitGo cs ls cur = (cur.reverse ++ pre) :: ss ∧
      pre ++ ss.flatten = cs ∧
      Sects ss ∧
      (ss = [] ∨ endsLT (cur.reverse ++ pre) = true) ∧
      (∀ a b : List Char, pre = a ++ b → b ≠ [] → lsAfter a ls = true →
        cur.reverse ++ a ≠ [] → diffGitMark.isPrefixOf b = false) := by
  induction cs with
  | nil =>
      intro ls cur _
      refine ⟨[], [], by simp [splitGo], by simp, Sects.nil, Or.inl rfl, ?_⟩
      intro a b hab hb _ _
      exact absurd (List.append_eq_nil.mp hab.symm).2 hb
  | cons c rest ih =>
      intro ls cur hcur
      by_cases hg : (ls && !cur.isEmpty && diffGitMark.isPrefixOf (c :: rest)) = true
      · -- a cut happens right before `c`
        obtain ⟨⟨hls, hne⟩, hmk⟩ : (ls = true ∧ ¬cur = []) ∧
            diffGitMark <+: (c :: rest) := by
          simpa [Bool.and_eq_true, List.isEmpty_iff] using hg
        obtain ⟨pre', ss', h1, h2, h3, h4, h5⟩ :=
          ih (isLineTerminator c) [c] rfl
        have hrev : ([c].reverse : List Char) = [c] := rfl
        rw [hrev] at h1 h4
        have hpre' : pre' ++ ss'.flatten = rest := h2
        have hcpre : (c :: pre') <+: (c :: rest) :=
          List.cons_prefix_cons.mpr ⟨rfl, ⟨ss'.flatten, hpre'⟩⟩
        have hmark' : diffGitMark.isPrefixOf (c :: pre') = true := by
          rw [List.isPrefixOf_iff_prefix]
          rcases h4 with h4 | h4
          · subst h4
            simp only [List.flatten_nil, List.append_nil] at hpre'
            rw [hpre']
            exact hmk
          · rcases List.prefix_or_prefix_of_prefix hmk hcpre with h | h
            · exact h
            · exfalso
              have h4' : endsLT (c :: pre') = true := h4
              obtain ⟨d, hdm, hdlt⟩ := endsLT_mem _ h4'
              have : d ∈ diffGitMark := h.subset hdm
              rw [diffGitMark_no_lt d this] at hdlt
              exact Bool.false_ne_true hdlt
        have hnob : noBoundary (c :: pre') := by
          intro a b hab hb hea
          cases a with
          | nil => exact absurd hea (by simp [endsLT, lsAfter])
          | cons c' a' =>
              rw [List.cons_append] at hab
              injection hab with hc' ha'
              subst hc'
              refine h5 a' b ha' hb ?_ (by simp)
              cases a' with
              | nil => simpa [endsLT, lsAfter] using hea
              | cons d r =>
                  have hdr : endsLT (d :: r) = true := hea
                  rw [endsLT_eq_lsAfter (d :: r) (by simp)
                    (isLineTerminator c)] at hdr
                  exact hdr
        have hsects : Sects ((c :: pre') :: ss') := by
          cases ss' with
          | nil => exact Sects.last _ hmark' hnob
          | cons t r =>
              rcases h4 with h4 | h4
              · exact absurd h4 (by simp)
              · exact Sects.cons _ _ _ hmark' hnob h4 h3
        refine ⟨[], (c :: pre') :: ss', ?_, ?_, hsects, ?_, ?_⟩
        · simp only [splitGo, hg, if_pos]
          rw [h1]
          simp
        · simp only [List.flatten_cons, List.nil_append]
          rw [List.cons_append, hpre']
        · refine Or.inr ?_
          rw [List.append_nil]
          cases cur with
          | nil => exact absurd rfl hne
          | cons d cur' =>
              have hd : isLineTerminator d = true := by
                have hlc : lsOfCur (d :: cur') = true := by
                  rw [← hcur]; exact hls
                simpa [lsOfCur] using hlc
              exact endsLT_reverse_of_head _ d rfl hd
        · intro a b hab hb _ _
          exact absurd (List.append_eq_nil.mp hab.symm).2 hb
      · -- no cut: `c` joins the current section
        obtain ⟨pre', ss', h1, h2, h3, h4, h5⟩ :=
          ih (isLineTerminator c) (c :: cur) (by simp [lsOfCur])
        have hrew : ((c :: cur).reverse ++ pre' : List Char) =
            cur.reverse ++ (c :: pre') := by
          simp
        refine ⟨c :: pre', ss', ?_, ?_, h3, ?_, ?_⟩
        · simp only [splitGo, hg, if_neg, Bool.not_eq_true]
          rw [h1, hrew]
        · rw [List.cons_append, h2]
        · rcases h4 with h4 | h4
          · exact Or.inl h4
          · exact Or.inr (hrew ▸ h4)
        · intro a b hab hb hlsa hnea
          cases a with
          | nil =>
              have hb' : b = c :: pre' := by simpa using hab.symm
              have hlstrue : ls = true := by simpa [lsAfter] using hlsa
              have hcur' : cur ≠ [] := by
                intro hnil
                rw [hnil] at hnea
                exact hnea rfl
              have hmk : diffGitMark.isPrefixOf (c :: rest) = false := by
                by_contra hmm
                rw [Bool.not_eq_false] at hmm
                apply hg
                simp [hlstrue, hmm, List.isEmpty_iff, hcur']
              subst hb'
              by_contra hmm
              rw [Bool.not_eq_false, List.isPrefixOf_iff_prefix] at hmm
              have hpp : diffGitMark <+: (c :: rest) :=
                hmm.trans (List.cons_prefix_cons.mpr ⟨rfl, ⟨ss'.flatten, h2⟩⟩)
              have hppb := List.isPrefixOf_iff_prefix.mpr hpp
              rw [hmk] at hppb
              exact Bool.false_ne_true hppb
          | cons c' a' =>
              rw [List.cons_append] at hab
              injection hab with hc' ha'
              subst hc'
              refine h5 a' b ha' hb ?_ (by simp)
              exact hlsa

/-- A mark occurrence cannot straddle a section boundary: the mark contains
no line terminator, so if `b` ends with one and the mark is not a prefix of
`b`, it is not a prefix of `b ++ rest` either. -/
theorem mark_not_prefix_extend (b rest : List Char) (hnb : diffGitMark.isPrefixOf b = false)
    (hcase : rest = [] ∨ endsLT b = true) :
    diffGitMark.isPrefixOf (b ++ rest) = false := by
  rcases hcase with hcase | hcase
  · rw [hcase, List.append_nil]
    exact hnb
  · by_contra hmm
    rw [Bool.not_eq_false, List.isPrefixOf_iff_prefix] at hmm
    rcases List.prefix_or_prefix_of_prefix hmm (b.prefix_append rest) with h | h
    · have := List.isPrefixOf_iff_prefix.mpr h
      rw [hnb] at this
      exact Bool.false_ne_true this
    · obtain ⟨d, hdb, hdlt⟩ := endsLT_mem b hcase
      have : d ∈ diffGitMark := h.subset hdb
      rw [diffGitMark_no_lt d this] at hdlt
      exact Bool.false_ne_true hdlt

/-- Scanning a stretch with no cut opportunity just accumulates it. -/
theorem splitGo_no_cut (s : List Char) : ∀ (rest : List Char) (ls : Bool)
    (cur : List Char),
    (∀ a b : List Char, s = a ++ b → b ≠ [] → lsAfter a ls = true →
      cur.reverse ++ a ≠ [] → diffGitMark.isPrefixOf (b ++ rest) = false) →
    splitGo (s ++ rest) ls cur = splitGo rest (lsAfter s ls) (s.reverse ++ cur) := by
  induction s with
  | nil =>
      intro rest ls cur _
      simp [lsAfter]
  | cons c t ih =>
      intro rest ls cur H
      have hg : (ls && !cur.isEmpty && diffGitMark.isPrefixOf (c :: (t ++ rest))) = false := by
        by_contra hmm
        rw [Bool.not_eq_false] at hmm
        obtain ⟨⟨hls, hne⟩, hmk⟩ : (ls = true ∧ ¬cur = []) ∧
            diffGitMark.isPrefixOf (c :: (t ++ rest)) = true := by
          simpa [Bool.and_eq_true, List.isEmpty_iff] using hmm
        have := H [] (c :: t) rfl (by simp) (by simpa [lsAfter] using hls)
          (by simpa using hne)
        rw [List.cons_append] at this
        rw [this] at hmk
        exact Bool.false_ne_true hmk
      have step : splitGo ((c :: t) ++ rest) ls cur =
          splitGo (t ++ rest) (isLineTerminator c) (c :: cur) := by
        rw [List.cons_append]
        simp only [splitGo, hg, if_neg, Bool.not_eq_true]
      rw [step]
      have H' : ∀ a b : List Char, t = a ++ b → b ≠ [] →
          lsAfter a (isLineTerminator c) = true →
          (c :: cur).reverse ++ a ≠ [] →
          diffGitMark.isPrefixOf (b ++ rest) = false := by
        intro a b hab hb hlsa _
        exact H (c :: a) b (by rw [hab, List.cons_append]) hb hlsa (by simp)
      rw [ih rest (isLineTerminator c) (c :: cur) H']
      have h1 : lsAfter t (isLineTerminator c) = lsAfter (c :: t) ls := rfl
      have h2 : (t.reverse ++ (c :: cur) : List Char) = (c :: t).reverse ++ cur := by
        simp
      rw [h1, h2]

/-- Scanning one well-formed marked section from a line start cuts exactly
once, right at its start. -/
theorem splitGo_section (s rest cur : List Char)
    (hm : diffGitMark.isPrefixOf s = true) (hb : noBoundary s)
    (hend : rest = [] ∨ endsLT s = true) (hcur : cur ≠ []) :
    splitGo (s ++ rest) true cur =
      cur.reverse :: splitGo rest (lsAfter s true) s.reverse := by
  obtain ⟨c, t, rfl⟩ : ∃ c t, s = c :: t := by
    cases s with
    | nil =>
        exfalso
        rw [List.isPrefixOf_iff_prefix] at hm
        exact diffGitMark_ne_nil (List.prefix_nil.mp hm)
    | cons c t => exact ⟨c, t, rfl⟩
  have hcmem : c ∈ diffGitMark := by
    rw [List.isPrefixOf_iff_prefix] at hm
    obtain ⟨k, hk⟩ := hm
    cases hmm : diffGitMark with
    | nil => exact absurd hmm diffGitMark_ne_nil
    | cons m0 m' =>
        rw [hmm, List.cons_append] at hk
        injection hk with hk1 _
        rw [hk1]
        exact List.mem_cons_self c _
  have hclt : isLineTerminator c = false := diffGitMark_no_lt c hcmem
  have hg : (true && !cur.isEmpty && diffGitMark.isPrefixOf ((c :: t) ++ rest)) = true := by
    have hmk2 : diffGitMark <+: (c :: (t ++ rest)) := by
      rw [List.isPrefixOf_iff_prefix] at hm
      refine hm.trans ?_
      have hpa := (c :: t).prefix_append rest
      simp only [List.cons_append] at hpa
      exact hpa
    simp [hmk2, List.isEmpty_iff, hcur]
  have step : splitGo ((c :: t) ++ rest) true cur =
      cur.reverse :: splitGo (t ++ rest) (isLineTerminator c) [c] := by
    rw [List.cons_append]
    simp only [splitGo]
    rw [List.cons_append] at hg
    rw [hg]
    simp
  rw [step]
  have H : ∀ a b : List Char, t = a ++ b → b ≠ [] →
      lsAfter a (isLineTerminator c) = true →
      ([c].reverse ++ a : List Char) ≠ [] →
      diffGitMark.isPrefixOf (b ++ rest) = false := by
    intro a b hab hbne hlsa _
    have hea : endsLT (c :: a) = true := hlsa
    have hnpb : diffGitMark.isPrefixOf b = false :=
      hb (c :: a) b (by rw [hab, List.cons_append]) hbne hea
    refine mark_not_prefix_extend b rest hnpb ?_
    rcases hend with hend | hend
    · exact Or.inl hend
    · refine Or.inr (endsLT_of_suffix (c :: a) b hbne ?_)
      rw [List.cons_append, ← hab]
      exact hend
  rw [splitGo_no_cut t rest (isLineTerminator c) [c] H]
  have h1 : lsAfter t (isLineTerminator c) = lsAfter (c :: t) true := rfl
  have h2 : (t.reverse ++ [c] : List Char) = (c :: t).reverse := by simp
  rw [h1, h2]

theorem ne_nil_of_mark (s : List Char)
    (hm : diffGitMark.isPrefixOf s = true) : s ≠ [] := by
  intro hnil
  rw [hnil, List.isPrefixOf_iff_prefix] at hm
  exact diffGitMark_ne_nil (List.prefix_nil.mp hm)

/-- Scanning the concatenation of well-formed marked sections from a line
start with a nonempty pending piece emits the pending piece followed by
exactly those sections. -/
theorem splitGo_sections : ∀ ss : List (List Char), Sects ss →
    ∀ cur : List Char, cur ≠ [] →
    splitGo ss.flatten true cur = cur.reverse :: ss := by
  intro ss hss
  induction hss with
  | nil =>
      intro cur _
      simp [splitGo]
  | last s hm hb =>
      intro cur hcur
      have hfl : ([s] : List (List Char)).flatten = s ++ [] := by simp
      rw [hfl, splitGo_section s [] cur hm hb (Or.inl rfl) hcur]
      simp [splitGo]
  | cons s t r hm hb he _ ih =>
      intro cur hcur
      have hs : s ≠ [] := ne_nil_of_mark s hm
      have hfl : ((s :: t :: r) : List (List Char)).flatten =
          s ++ (t :: r).flatten := by simp
      rw [hfl, splitGo_section s (t :: r).flatten cur hm hb (Or.inr he) hcur]
      have hls : lsAfter s true = true := by
        rw [← endsLT_eq_lsAfter s hs true]
        exact he
      rw [hls, ih s.reverse (by simpa using hs)]
      simp

/-- Re-split stability: splitting the concatenation of a nonempty head piece
with no internal line-start mark and a list of well-formed marked sections
recovers exactly those pieces. -/
theorem splitDiffList_resplit (h : List Char) (ss : List (List Char))
    (hh : h ≠ []) (hnb : noBoundary h) (hend : ss = [] ∨ endsLT h = true)
    (hss : Sects ss) :
    splitDiffList (h ++ ss.flatten) = h :: ss := by
  unfold splitDiffList
  have H : ∀ a b : List Char, h = a ++ b → b ≠ [] → lsAfter a true = true →
      (([] : List Char).reverse ++ a : List Char) ≠ [] →
      diffGitMark.isPrefixOf (b ++ ss.flatten) = false := by
    intro a b hab hbne hlsa hane
    have ha : a ≠ [] := by simpa using hane
    have hea : endsLT a = true := by
      rw [endsLT_eq_lsAfter a ha true]
      exact hlsa
    have hnpb : diffGitMark.isPrefixOf b = false := hnb a b hab hbne hea
    refine mark_not_prefix_extend b ss.flatten hnpb ?_
    rcases hend with hend | hend
    · exact Or.inl (by rw [hend]; rfl)
    · refine Or.inr (endsLT_of_suffix a b hbne ?_)
      rw [← hab]
      exact hend
  rw [splitGo_no_cut h ss.flatten true [] H]
  rcases hend with hend | hend
  · subst hend
    simp [splitGo]
  · have hls : lsAfter h true = true := by
      rw [← endsLT_eq_lsAfter h hh true]
      exact hend
    rw [hls]
    cases hcs : ss with
    | nil =>
        simp [splitGo]
    | cons t r =>
        rw [← hcs]
        rw [List.append_nil]
        rw [splitGo_sections ss hss h.reverse (by simpa using hh)]
        simp

/-- Top-level shape of `splitDiffList`. -/
theorem splitDiffList_spec (cs : List Char) :
    ∃ h ss, splitDiffList cs = h :: ss ∧ h ++ ss.flatten = cs ∧
      noBoundary h ∧ Sects ss ∧ (ss = [] ∨ endsLT h = true) := by
  obtain ⟨pre, ss, h1, h2, h3, h4, h5⟩ := splitGo_spec cs true [] rfl
  refine ⟨pre, ss, by simpa [splitDiffList] using h1, h2, ?_, h3, ?_⟩
  · intro a b hab hbne hea
    have ha : a ≠ [] := by
      intro hnil
      rw [hnil] at hea
      exact absurd hea (by simp [endsLT, lsAfter])
    refine h5 a b hab hbne ?_ (by simpa using ha)
    rw [← endsLT_eq_lsAfter a ha true]
    exact hea
  · simpa using h4

/-- `Sects` is closed under `filter`. -/
theorem Sects.filter (P : List Char → Bool) :
    ∀ ss : List (List Char), Sects ss → Sects (ss.filter P) := by
  intro ss hss
  induction hss with
  | nil => exact Sects.nil
  | last s hm hb =>
      by_cases hp : P s = true
      · simpa [List.filter_cons, hp] using Sects.last s hm hb
      · simp only [List.filter_cons, Bool.not_eq_true] at hp ⊢
        rw [hp]
        exact Sects.nil
  | cons s t r hm hb he _ ih =>
      rw [List.filter_cons]
      by_cases hp : P s = true
      · rw [if_pos hp]
        cases hq : (t :: r).filter P with
        | nil => exact Sects.last s hm hb
        | cons t' r' =>
            rw [hq] at ih
            exact Sects.cons s t' r' hm hb he ih
      · rw [if_neg (by simpa using hp)]
        exact ih

/-- Re-splitting the concatenation of a filtered section list: the result is
the filtered list itself when the latter is nonempty, and the singleton empty
section otherwise. -/
theorem splitDiffList_flatten_filter (cs : List Char) (P : List Char → Bool) :
    splitDiffList (((splitDiffList cs).filter P).flatten) =
      if ((splitDiffList cs).filter P).isEmpty then [[]]
      else (splitDiffList cs).filter P := by
  obtain ⟨h, ss, hsplit, hjoin, hnb, hsects, hend⟩ := splitDiffList_spec cs
  rw [hsplit]
  rw [List.filter_cons]
  by_cases hp : P h = true
  · rw [if_pos hp]
    by_cases hh : h = []
    · have hssnil : ss = [] := by
        rcases hend with hend | hend
        · exact hend
        · rw [hh] at hend
          exact absurd hend (by simp [endsLT, lsAfter])
      subst hh hssnil
      simp [splitDiffList, splitGo]
    · have hend' : ss.filter P = [] ∨ endsLT h = true := by
        rcases hend with hend | hend
        · exact Or.inl (by rw [hend]; rfl)
        · exact Or.inr hend
      rw [show ((h :: ss.filter P).flatten : List Char) =
            h ++ (ss.filter P).flatten by simp]
      rw [splitDiffList_resplit h (ss.filter P) hh hnb hend'
        (Sects.filter P ss hsects)]
      simp
  · rw [if_neg (by simpa using hp)]
    cases hq : ss.filter P with
    | nil => simp [splitDiffList, splitGo]
    | cons s1 r1 =>
        have hinv : diffGitMark.isPrefixOf s1 = true ∧ noBoundary s1 ∧
            (r1 = [] ∨ endsLT s1 = true) ∧ Sects r1 := by
          have hs1 : Sects (s1 :: r1) := by
            rw [← hq]
            exact Sects.filter P ss hsects
          cases hs1 with
          | last s hm hb => exact ⟨hm, hb, Or.inl rfl, Sects.nil⟩
          | cons s t r hm hb he htl => exact ⟨hm, hb, Or.inr he, htl⟩
        obtain ⟨hm, hb, hend2, htl⟩ := hinv
        have hflat : ((s1 :: r1) : List (List Char)).flatten =
            s1 ++ r1.flatten := by simp
        rw [hflat, splitDiffList_resplit s1 r1 (ne_nil_of_mark s1 hm) hb
          hend2 htl]
        simp

theorem sectionHeaderPath_nil : sectionHeaderPath [] = none := by decide

theorem keepSection_nil (ex : List ExcludePath) : keepSection ex [] = true := by
  simp [keepSection, sectionHeaderPath_nil]

theorem toList_mk (l : List Char) : (String.mk l).toList = l := rfl

/-- C5: after filtering with a nonempty exclusion list, for every exclusion
prefix `p`: no remaining file name starts with `p.path`, no section of the
filtered diff has a parseable `diff --git a/<path> b/` header whose path
starts with `p.path`, and every section of the original diff whose header is
not parseable is kept in the filtered diff (fail open). -/
theorem c5_exclusion_completeness (files : List PRFile) (diff : String)
    (ex : List ExcludePath) (p : ExcludePath) (hp : p ∈ ex) :
    (∀ f ∈ (filterExcludedFiles files diff ex).files,
        strStartsWith f.filename p.path = false) ∧
    (∀ s ∈ splitDiffList (filterExcludedFiles files diff ex).diff.toList,
        ∀ q, sectionHeaderPath s = some q →
          strStartsWith (String.mk q) p.path = false) ∧
    (∀ s ∈ splitDiffList diff.toList, sectionHeaderPath s = none →
        s ∈ splitDiffList (filterExcludedFiles files diff ex).diff.toList) := by
  have hex : ¬ ex.length = 0 := by
    intro h
    exact (List.ne_nil_of_mem hp) (List.length_eq_zero.mp h)
  have hunf : filterExcludedFiles files diff ex =
      { files := files.filter (fun file => !isExcluded file.filename ex),
        diff := String.mk
          (((splitDiffList diff.toList).filter (keepSection ex)).flatten),
        excludedFilenames :=
          (files.filter (fun file => isExcluded file.filename ex)).map
            (fun file => file.filename) } := by
    simp only [filterExcludedFiles, if_neg hex]
  rw [hunf]
  have hstab := splitDiffList_flatten_filter diff.toList (keepSection ex)
  refine ⟨?_, ?_, ?_⟩
  · intro f hf
    simp only [List.mem_filter, Bool.not_eq_true'] at hf
    have hexcl : isExcluded f.filename ex = false := hf.2
    unfold isExcluded at hexcl
    rw [List.any_eq_false] at hexcl
    have := hexcl p hp
    simpa using this
  · intro s hs q hq
    rw [toList_mk, hstab] at hs
    by_cases hemp : ((splitDiffList diff.toList).filter (keepSection ex)).isEmpty = true
    · rw [if_pos hemp] at hs
      have hsnil : s = [] := by simpa using hs
      rw [hsnil, sectionHeaderPath_nil] at hq
      exact absurd hq (by simp)
    · rw [if_neg hemp] at hs
      have hkeep : keepSection ex s = true := (List.mem_filter.mp hs).2
      unfold keepSection at hkeep
      rw [hq] at hkeep
      have hexcl : isExcluded (String.mk q) ex = false := by
        simpa using hkeep
      unfold isExcluded at hexcl
      rw [List.any_eq_false] at hexcl
      have := hexcl p hp
      simpa using this
  · intro s hs hnone
    have hkeep : keepSection ex s = true := by
      unfold keepSection
      rw [hnone]
    have hmem : s ∈ (splitDiffList diff.toList).filter (keepSection ex) :=
      List.mem_filter.mpr ⟨hs, hkeep⟩
    have hne : ¬ ((splitDiffList diff.toList).filter (keepSection ex)).isEmpty = true := by
      intro hq
      rw [List.isEmpty_iff] at hq
      rw [hq] at hmem
      exact absurd hmem (List.not_mem_nil s)
    rw [toList_mk, hstab, if_neg hne]
    exact hmem

/-- Witness for C5 at a concrete diff with one excluded and one kept file. -/
theorem c5_exclusion_completeness_witness :
    pW ∈ exW ∧
    ((∀ f ∈ (filterExcludedFiles [fileW1, fileW2] diffW exW).files,
        strStartsWith f.filename pW.path = false) ∧
    (∀ s ∈ splitDiffList (filterExcludedFiles [fileW1, fileW2] diffW exW).diff.toList,
        ∀ q, sectionHeaderPath s = some q →
          strStartsWith (String.mk q) pW.path = false) ∧
    (∀ s ∈ splitDiffList diffW.toList, sectionHeaderPath s = none →
        s ∈ splitDiffList (filterExcludedFiles [fileW1, fileW2] diffW exW).diff.toList)) :=
  ⟨by decide, c5_exclusion_completeness [fileW1, fileW2] diffW exW pW (by decide)⟩

/-- C6: filtering with an empty exclusion list returns the inputs unchanged,
and filtering twice with the same exclusion list yields the same file list
and the same diff text as filtering once. -/
theorem c6_filter_idempotent (files : List PRFile) (diff : String)
    (ex : List ExcludePath) :
    filterExcludedFiles files diff [] =
      { files := files, diff := diff, excludedFilenames := [] } ∧
    (filterExcludedFiles (filterExcludedFiles files diff ex).files
        (filterExcludedFiles files diff ex).diff ex).files =
      (filterExcludedFiles files diff ex).files ∧
    (filterExcludedFiles (filterExcludedFiles files diff ex).files
        (filterExcludedFiles files diff ex).diff ex).diff =
      (filterExcludedFiles files diff ex).diff := by
  refine ⟨by simp [filterExcludedFiles], ?_, ?_⟩ <;>
    by_cases hex : ex.length = 0
  · simp only [filterExcludedFiles, if_pos hex]
  · have hunf : ∀ fs d, filterExcludedFiles fs d ex =
        { files := fs.filter (fun file => !isExcluded file.filename ex),
          diff := String.mk
            (((splitDiffList d.toList).filter (keepSection ex)).flatten),
          excludedFilenames :=
            (fs.filter (fun file => isExcluded file.filename ex)).map
              (fun file => file.filename) } := by
      intro fs d
      simp only [filterExcludedFiles, if_neg hex]
    rw [hunf, hunf]
    dsimp only
    rw [List.filter_filter]
    exact List.filter_congr (fun x _ => Bool.and_self _)
  · simp only [filterExcludedFiles, if_pos hex]
  · have hunf : ∀ fs d, filterExcludedFiles fs d ex =
        { files := fs.filter (fun file => !isExcluded file.filename ex),
          diff := String.mk
            (((splitDiffList d.toList).filter (keepSection ex)).flatten),
          excludedFilenames :=
            (fs.filter (fun file => isExcluded file.filename ex)).map
              (fun file => file.filename) } := by
      intro fs d
      simp only [filterExcludedFiles, if_neg hex]
    rw [hunf, hunf]
    dsimp only
    simp only [toList_mk]
    have hstab := splitDiffList_flatten_filter diff.toList (keepSection ex)
    by_cases hemp :
        ((splitDiffList diff.toList).filter (keepSection ex)).isEmpty = true
    · have hq : (splitDiffList diff.toList).filter (keepSection ex) = [] :=
        List.isEmpty_iff.mp hemp
      rw [hq]
      rw [if_pos hemp] at hstab
      rw [hq] at hstab
      simp only [List.flatten_nil] at hstab ⊢
      rw [hstab]
      simp [keepSection_nil]
    · rw [if_neg hemp] at hstab
      rw [hstab]
      have hself : ((splitDiffList diff.toList).filter (keepSection ex)).filter
          (keepSection ex) = (splitDiffList diff.toList).filter (keepSection ex) :=
        List.filter_eq_self.mpr (fun s hs => (List.mem_filter.mp hs).2)
      rw [hself]

theorem scopedPR_commits (i : RunInputs) :
    (scopedPR i).1.commits = i.pr.commits := by
  unfold scopedPR
  cases i.config.exclude_paths with
  | none => rfl
  | some ps =>
      dsimp only
      by_cases h : 0 < ps.length
      · rw [if_pos h]
      · rw [if_neg h]

theorem mem_mergeSteps (a : RunAction) (enabled : Bool) (pr : PRDetails)
    (n : Nat) (h : a ∈ mergeSteps enabled pr n) :
    ∃ m, a = RunAction.mergePR n m := by
  unfold mergeSteps at h
  split at h
  · split at h
    · exact ⟨_, by simpa using h⟩
    · simp at h
  · simp at h

theorem mem_postingSteps (a : RunAction) (i : RunInputs) (n : Nat)
    (pr : PRDetails) (result : ReviewResult)
    (h : a ∈ postingSteps i n pr result) :
    (∃ f, a = RunAction.createIssue f) ∨
    a = RunAction.postReview n result ∨
    (∃ st d, a = RunAction.setCommitStatus pr.head_sha st d) ∨
    (0 < (result.findings.filter isBlocking).length ∧
      ∃ m, a = RunAction.setFailed m) ∨
    (∃ m, a = RunAction.mergePR n m) := by
  unfold postingSteps at h
  rcases List.mem_append.mp h with h | h
  · rcases List.mem_append.mp h with h | h
    · obtain ⟨f, _, hf⟩ := List.mem_map.mp h
      exact Or.inl ⟨f, hf.symm⟩
    · rcases List.mem_cons.mp h with h | h
      · exact Or.inr (Or.inl h)
      · have hs : a = RunAction.setCommitStatus pr.head_sha
            (if 0 < (result.findings.filter isBlocking).length then
              CommitState.failure else CommitState.success)
            (if 0 < (result.findings.filter isBlocking).length then
              toString (result.findings.filter isBlocking).length ++
                " blocking issue(s) found"
             else "Review passed") := by simpa using h
        exact Or.inr (Or.inr (Or.inl ⟨_, _, hs⟩))
  · split at h
    · rename_i hpos
      have hs : a = RunAction.setFailed ("PR review found " ++
          toString (result.findings.filter isBlocking).length ++
          " blocking issue(s)") := by simpa using h
      exact Or.inr (Or.inr (Or.inr (Or.inl ⟨hpos, _, hs⟩)))
    · exact Or.inr (Or.inr (Or.inr (Or.inr (mem_mergeSteps a _ pr n h))))

theorem postReview_mem_postingSteps (i : RunInputs) (n : Nat)
    (pr : PRDetails) (result : ReviewResult) :
    RunAction.postReview n result ∈ postingSteps i n pr result := by
  unfold postingSteps
  refine List.mem_append.mpr (Or.inl (List.mem_append.mpr (Or.inr ?_)))
  exact List.mem_cons_self _ _

theorem callAutoFix_not_mem_postingSteps (s : List ReviewFinding)
    (i : RunInputs) (n : Nat) (pr : PRDetails) (result : ReviewResult) :
    RunAction.callAutoFix s ∉ postingSteps i n pr result := by
  intro h
  rcases mem_postingSteps _ i n pr result h with ⟨f, hf⟩ | hf | ⟨st, d, hf⟩ |
    ⟨_, m, hf⟩ | ⟨m, hf⟩ <;> simp at hf

/-- C2: if the most recent commit of the PR is an auto-fix commit, the run
never invokes `autoFixSuggestions`, regardless of the suggestion count, and
when the review succeeds on a nonempty in-scope file list the run still
posts the review. -/
theorem c2_loop_guard (i : RunInputs) (c : PRCommit)
    (h1 : i.pr.commits.getLast? = some c)
    (h2 : isAutoFixCommit c.message = true) :
    (∀ s, RunAction.callAutoFix s ∉ run i) ∧
    (∀ n raw, i.prNumber? = some n → i.reviewOutcome = Except.ok raw →
      0 < (scopedPR i).1.files.length →
      RunAction.postReview n (Reviewer.review raw) ∈ run i) := by
  have hlate : isAutoFixCommit
      ((((scopedPR i).1.commits.getLast?).map PRCommit.message).getD "") = true := by
    rw [scopedPR_commits i, h1]
    simpa using h2
  constructor
  · intro s
    unfold run
    cases hpn : i.prNumber? with
    | none => simp
    | some n =>
        dsimp only
        by_cases hf : (scopedPR i).1.files.length = 0
        · rw [if_pos hf]
          intro hmem
          rcases List.mem_append.mp hmem with h | h
          · simp at h
          · obtain ⟨m, hm⟩ := mem_mergeSteps _ _ _ _ h
            simp at hm
        · rw [if_neg hf]
          intro hmem
          rcases List.mem_append.mp hmem with h | h
          · simp at h
          · cases hro : i.reviewOutcome with
            | error e =>
                rw [hro] at h
                simp at h
            | ok raw =>
                rw [hro] at h
                unfold reviewedSteps at h
                rw [hlate] at h
                simp only [Bool.not_true, Bool.and_false, Bool.false_and,
                  Bool.false_eq_true, if_false] at h
                exact callAutoFix_not_mem_postingSteps s i n _ (Reviewer.review raw) h
  · intro n raw hpn hro hflen
    unfold run
    rw [hpn]
    dsimp only
    rw [if_neg (Nat.pos_iff_ne_zero.mp hflen)]
    refine List.mem_append.mpr (Or.inr ?_)
    rw [hro]
    unfold reviewedSteps
    rw [hlate]
    simp only [Bool.not_true, Bool.and_false, Bool.false_and,
      Bool.false_eq_true, if_false]
    exact postReview_mem_postingSteps i n _ (Reviewer.review raw)

/-- C3: in a run that reaches the posting stage (review succeeded,
auto-fix not pushed), at least one blocking finding forces a `failure`
commit status and a failed process outcome, even when the raw model status
was `approved`; zero blocking findings give a `success` commit status and no
failure. -/
theorem c3_blocking_outcome (i : RunInputs) (n : Nat) (raw : ReviewResult)
    (hpn : i.prNumber? = some n)
    (hro : i.reviewOutcome = Except.ok raw)
    (hfl : 0 < (scopedPR i).1.files.length)
    (hnofix : (i.autoFixEnabled && !latestIsAutoFix i &&
        decide (0 < (suggestionsOf raw).length) && i.autoFixPushed) = false) :
    (0 < (blockingOf raw).length →
      RunAction.setCommitStatus (scopedPR i).1.head_sha CommitState.failure
          (toString (blockingOf raw).length ++ " blocking issue(s) found") ∈
        run i ∧
      ∃ m, RunAction.setFailed m ∈ run i) ∧
    ((blockingOf raw).length = 0 →
      RunAction.setCommitStatus (scopedPR i).1.head_sha CommitState.success
          "Review passed" ∈ run i ∧
      ∀ m, RunAction.setFailed m ∉ run i) := by
  unfold suggestionsOf at hnofix
  unfold blockingOf
  have hrun : run i = [RunAction.ensureLabels, RunAction.getPRDetails n,
      RunAction.setCommitStatus (scopedPR i).1.head_sha CommitState.pending
        "Review in progress...",
      RunAction.callReviewer] ++
      reviewedSteps i n (scopedPR i).1 (latestIsAutoFix i) raw := by
    unfold run
    rw [hpn]
    dsimp only
    rw [if_neg (Nat.pos_iff_ne_zero.mp hfl), hro]
    rfl
  have hsteps : (reviewedSteps i n (scopedPR i).1 (latestIsAutoFix i) raw =
      RunAction.callAutoFix ((Reviewer.review raw).findings.filter isSuggestion) ::
        postingSteps i n (scopedPR i).1 (Reviewer.review raw)) ∨
      reviewedSteps i n (scopedPR i).1 (latestIsAutoFix i) raw =
        postingSteps i n (scopedPR i).1 (Reviewer.review raw) := by
    unfold reviewedSteps
    dsimp only
    by_cases hg : (i.autoFixEnabled && !latestIsAutoFix i &&
        decide (0 < ((Reviewer.review raw).findings.filter isSuggestion).length)) = true
    · rw [if_pos hg]
      rw [hg] at hnofix
      simp only [Bool.true_and] at hnofix
      rw [hnofix]
      left
      simp
    · rw [if_neg hg]
      right
      rfl
  constructor
  · intro hb
    constructor
    · rw [hrun]
      refine List.mem_append.mpr (Or.inr ?_)
      have hmem : RunAction.setCommitStatus (scopedPR i).1.head_sha
          CommitState.failure
          (toString ((Reviewer.review raw).findings.filter isBlocking).length ++
            " blocking issue(s) found") ∈
          postingSteps i n (scopedPR i).1 (Reviewer.review raw) := by
        unfold postingSteps
        dsimp only
        refine List.mem_append.mpr (Or.inl (List.mem_append.mpr (Or.inr ?_)))
        simp [hb]
      rcases hsteps with hs | hs <;> rw [hs]
      · exact List.mem_cons_of_mem _ hmem
      · exact hmem
    · refine ⟨"PR review found " ++
        toString ((Reviewer.review raw).findings.filter isBlocking).length ++
        " blocking issue(s)", ?_⟩
      rw [hrun]
      refine List.mem_append.mpr (Or.inr ?_)
      have hmem : RunAction.setFailed ("PR review found " ++
          toString ((Reviewer.review raw).findings.filter isBlocking).length ++
          " blocking issue(s)") ∈
          postingSteps i n (scopedPR i).1 (Reviewer.review raw) := by
        unfold postingSteps
        dsimp only
        refine List.mem_append.mpr (Or.inr ?_)
        rw [if_pos hb]
        simp
      rcases hsteps with hs | hs <;> rw [hs]
      · exact List.mem_cons_of_mem _ hmem
      · exact hmem
  · intro hz
    constructor
    · rw [hrun]
      refine List.mem_append.mpr (Or.inr ?_)
      have hmem : RunAction.setCommitStatus (scopedPR i).1.head_sha
          CommitState.success "Review passed" ∈
          postingSteps i n (scopedPR i).1 (Reviewer.review raw) := by
        unfold postingSteps
        dsimp only
        refine List.mem_append.mpr (Or.inl (List.mem_append.mpr (Or.inr ?_)))
        simp [hz]
      rcases hsteps with hs | hs <;> rw [hs]
      · exact List.mem_cons_of_mem _ hmem
      · exact hmem
    · intro m hm
      rw [hrun] at hm
      rcases List.mem_append.mp hm with h | h
      · simp at h
      · have hpost : RunAction.setFailed m ∈
            postingSteps i n (scopedPR i).1 (Reviewer.review raw) := by
          rcases hsteps with hs | hs
          · rw [hs] at h
            rcases List.mem_cons.mp h with h | h
            · exact absurd h (by simp)
            · exact h
          · rw [hs] at h
            exact h
        rcases mem_postingSteps _ i n _ _ hpost with ⟨f, hf⟩ | hf |
          ⟨st, d, hf⟩ | ⟨hpos, m', hf⟩ | ⟨mm, hf⟩
        · simp at hf
        · simp at hf
        · simp at hf
        · rw [hz] at hpos
          exact Nat.lt_irrefl 0 hpos
        · simp at hf

/-- C4: when the in-scope file list is empty after exclusion filtering, the
run posts exactly one auto-approval review with zero findings, sets a
`success` commit status, attempts the merge when auto-merge is enabled and
configured, and never invokes the reviewer. -/
theorem c4_all_excluded (i : RunInputs) (n : Nat)
    (hpn : i.prNumber? = some n)
    (hf : (scopedPR i).1.files.length = 0) :
    run i =
      [RunAction.ensureLabels, RunAction.getPRDetails n,
       RunAction.postReview n
         { status := ReviewStatus.approved,
           summary := excludedSummary (scopedPR i).2.length, findings := [] },
       RunAction.setCommitStatus (scopedPR i).1.head_sha CommitState.success
         "All files excluded — auto-approved"] ++
        mergeSteps i.autoMergeEnabled (scopedPR i).1 n ∧
    RunAction.callReviewer ∉ run i ∧
    (i.autoMergeEnabled = true → ∀ am, (scopedPR i).1.auto_merge = some am →
      RunAction.mergePR n am.merge_method ∈ run i) := by
  have hrun : run i =
      [RunAction.ensureLabels, RunAction.getPRDetails n,
       RunAction.postReview n
         { status := ReviewStatus.approved,
           summary := excludedSummary (scopedPR i).2.length, findings := [] },
       RunAction.setCommitStatus (scopedPR i).1.head_sha CommitState.success
         "All files excluded — auto-approved"] ++
        mergeSteps i.autoMergeEnabled (scopedPR i).1 n := by
    unfold run
    rw [hpn]
    dsimp only
    rw [if_pos hf]
  refine ⟨hrun, ?_, ?_⟩
  · rw [hrun]
    intro hm
    rcases List.mem_append.mp hm with h | h
    · simp at h
    · obtain ⟨m, hm'⟩ := mem_mergeSteps _ _ _ _ h
      simp at hm'
  · intro hen am ham
    rw [hrun]
    refine List.mem_append.mpr (Or.inr ?_)
    unfold mergeSteps
    rw [if_pos hen, ham]
    simp

/-- Witness for C2 at a concrete run whose latest commit is an auto-fix. -/
theorem c2_loop_guard_witness :
    iW.pr.commits.getLast? = some commitW ∧
    isAutoFixCommit commitW.message = true ∧
    (∀ s, RunAction.callAutoFix s ∉ run iW) :=
  ⟨by decide, by decide, (c2_loop_guard iW commitW (by decide) (by decide)).1⟩

/-- Witness for C3 at a concrete run with one blocking finding and a raw
`approved` status. -/
theorem c3_blocking_outcome_witness :
    0 < (blockingOf rawApprovedBlockingW).length ∧
    (RunAction.setCommitStatus (scopedPR iW).1.head_sha CommitState.failure
        (toString (blockingOf rawApprovedBlockingW).length ++
          " blocking issue(s) found") ∈ run iW ∧
      ∃ m, RunAction.setFailed m ∈ run iW) :=
  ⟨by decide,
    (c3_blocking_outcome iW 1 rawApprovedBlockingW rfl rfl (by decide)
      (by decide)).1 (by decide)⟩

/-- Witness for C4 at a concrete run with every changed file excluded. -/
theorem c4_all_excluded_witness :
    (scopedPR iW4).1.files.length = 0 ∧
    RunAction.callReviewer ∉ run iW4 ∧
    RunAction.mergePR 2 MergeMethod.squash ∈ run iW4 := by
  have h := c4_all_excluded iW4 2 rfl (by decide)
  exact ⟨by decide, h.2.1,
    h.2.2 rfl { merge_method := MergeMethod.squash } (by decide)⟩

theorem insertGroup_inv (file : String) (f : ReviewFinding)
    (hf : truthyFix f = true) :
    ∀ gs : List (String × List ReviewFinding),
      (∀ g ∈ gs, ∀ x ∈ g.2, truthyFix x = true) →
      ∀ g ∈ insertGroup gs file f, ∀ x ∈ g.2, truthyFix x = true := by
  intro gs
  induction gs with
  | nil =>
      intro _ g hg x hx
      simp only [insertGroup, List.mem_singleton] at hg
      subst hg
      rw [List.mem_singleton.mp hx]
      exact hf
  | cons p rest ih =>
      obtain ⟨k, v⟩ := p
      intro hinv g hg x hx
      unfold insertGroup at hg
      by_cases hk : (k == file) = true
      · rw [if_pos hk] at hg
        rcases List.mem_cons.mp hg with hg | hg
        · subst hg
          rcases List.mem_append.mp hx with hx | hx
          · exact hinv (k, v) (List.mem_cons_self _ _) x hx
          · rw [List.mem_singleton.mp hx]
            exact hf
        · exact hinv g (List.mem_cons_of_mem _ hg) x hx
      · rw [if_neg hk] at hg
        rcases List.mem_cons.mp hg with hg | hg
        · subst hg
          exact hinv (k, v) (List.mem_cons_self _ _) x hx
        · exact ih (fun g' hg' => hinv g' (List.mem_cons_of_mem _ hg')) g hg x hx

theorem fileGroups_all_truthy (suggestions : List ReviewFinding) :
    ∀ g ∈ fileGroups suggestions, ∀ f ∈ g.2, truthyFix f = true := by
  unfold fileGroups
  suffices h : ∀ (l : List ReviewFinding) (gs : List (String × List ReviewFinding)),
      (∀ g ∈ gs, ∀ x ∈ g.2, truthyFix x = true) →
      ∀ g ∈ l.foldl
        (fun gs0 f => if truthyFix f then insertGroup gs0 f.file f else gs0) gs,
        ∀ x ∈ g.2, truthyFix x = true by
    exact h suggestions [] (by simp)
  intro l
  induction l with
  | nil =>
      intro gs hinv
      simpa using hinv
  | cons f fs ih =>
      intro gs hinv
      rw [List.foldl_cons]
      by_cases hf : truthyFix f = true
      · rw [if_pos hf]
        exact ih _ (insertGroup_inv f.file f hf gs hinv)
      · rw [if_neg hf]
        exact ih gs hinv

theorem fileGroups_nil_of_none (suggestions : List ReviewFinding)
    (h : ∀ f ∈ suggestions, f.suggested_fix = none) :
    fileGroups suggestions = [] := by
  unfold fileGroups
  suffices hgen : ∀ (l : List ReviewFinding)
      (gs : List (String × List ReviewFinding)),
      (∀ f ∈ l, f.suggested_fix = none) →
      l.foldl (fun gs0 f => if truthyFix f then insertGroup gs0 f.file f else gs0)
        gs = gs by
    exact hgen suggestions [] h
  intro l
  induction l with
  | nil => intro gs _; rfl
  | cons f fs ih =>
      intro gs hall
      rw [List.foldl_cons]
      have hf : truthyFix f = false := by
        have := hall f (List.mem_cons_self _ _)
        simp [truthyFix, this]
      rw [if_neg (by simp [hf])]
      exact ih gs (fun x hx => hall x (List.mem_cons_of_mem _ hx))

theorem readFile_mem_processGroup (env : FixEnv)
    (g : String × List ReviewFinding) :
    FixAction.readFile g.1 ∈ (processGroup env g).2 := by
  cases hr : env.read g.1 with
  | error e => simp [processGroup, hr]
  | ok orig =>
      cases hm : env.model g.1 with
      | error e => simp [processGroup, hr, hm]
      | ok c =>
          cases c with
          | none => simp [processGroup, hr, hm]
          | some fc =>
              by_cases h1 : (fc == "") = true
              · simp [processGroup, hr, hm, h1]
              · by_cases h2 : (jsTrim (stripFences fc) == jsTrim orig) = true
                · simp [processGroup, hr, hm, h1, h2]
                · simp [processGroup, hr, hm, h1, h2]

/-- C7: findings with a `null`/absent `suggested_fix` are discarded before
grouping, and when every supplied finding lacks a fix the engine returns
`false` with no file read, no file write and no model call. -/
theorem c7_null_fix_inert (env : FixEnv) (suggestions : List ReviewFinding) :
    (∀ g ∈ fileGroups suggestions, ∀ f ∈ g.2, f.suggested_fix ≠ none) ∧
    ((∀ f ∈ suggestions, f.suggested_fix = none) →
      autoFixSuggestions env suggestions = (false, [])) := by
  constructor
  · intro g hg f hf hnone
    have := fileGroups_all_truthy suggestions g hg f hf
    rw [truthyFix, hnone] at this
    exact Bool.false_ne_true this
  · intro hall
    have hfg := fileGroups_nil_of_none suggestions hall
    unfold autoFixSuggestions
    by_cases hs : suggestions.length = 0
    · rw [if_pos hs]
    · rw [if_neg hs]
      dsimp only
      rw [hfg]
      simp

theorem eraseAutoFix_mergeSteps (e : Bool) (pr : PRDetails) (n : Nat) :
    eraseAutoFix (mergeSteps e pr n) = mergeSteps e pr n := by
  refine List.filter_eq_self.mpr (fun a ha => ?_)
  obtain ⟨m, hm⟩ := mem_mergeSteps a e pr n ha
  rw [hm]
  rfl

theorem eraseAutoFix_postingSteps (i : RunInputs) (n : Nat) (pr : PRDetails)
    (result : ReviewResult) :
    eraseAutoFix (postingSteps i n pr result) = postingSteps i n pr result := by
  refine List.filter_eq_self.mpr (fun a ha => ?_)
  rcases mem_postingSteps a i n pr result ha with ⟨f, hf⟩ | hf | ⟨st, d, hf⟩ |
    ⟨_, m, hf⟩ | ⟨m, hf⟩ <;> rw [hf] <;> rfl

theorem eraseAutoFix_append (a b : List RunAction) :
    eraseAutoFix (a ++ b) = eraseAutoFix a ++ eraseAutoFix b :=
  List.filter_append a b

theorem eraseAutoFix_reviewedSteps (i : RunInputs) (n : Nat) (pr : PRDetails)
    (af : Bool) (raw : ReviewResult) (hp : i.autoFixPushed = false) :
    eraseAutoFix (reviewedSteps i n pr af raw) =
      postingSteps i n pr (Reviewer.review raw) := by
  unfold reviewedSteps
  dsimp only
  by_cases hg : (i.autoFixEnabled && !af &&
      decide (0 < ((Reviewer.review raw).findings.filter isSuggestion).length)) = true
  · rw [if_pos hg, hp]
    simp only [Bool.false_eq_true, if_false]
    rw [show eraseAutoFix (RunAction.callAutoFix
        ((Reviewer.review raw).findings.filter isSuggestion) ::
        postingSteps i n pr (Reviewer.review raw)) =
        eraseAutoFix (postingSteps i n pr (Reviewer.review raw)) from by
      unfold eraseAutoFix
      rw [List.filter_cons]
      rw [if_neg (by simp [isCallAutoFix])]]
    exact eraseAutoFix_postingSteps i n pr _
  · rw [if_neg hg]
    exact eraseAutoFix_postingSteps i n pr _

theorem reviewedSteps_disabled (i : RunInputs) (n : Nat) (pr : PRDetails)
    (af : Bool) (raw : ReviewResult) (hd : i.autoFixEnabled = false) :
    reviewedSteps i n pr af raw = postingSteps i n pr (Reviewer.review raw) := by
  unfold reviewedSteps
  dsimp only
  rw [hd]
  simp

theorem run_none (j : RunInputs) (h : j.prNumber? = none) :
    run j = [RunAction.setFailed
      "This action must be triggered by a pull_request event"] := by
  unfold run
  rw [h]

theorem run_some_empty (j : RunInputs) (n : Nat) (h : j.prNumber? = some n)
    (hf : (scopedPR j).1.files.length = 0) :
    run j = [RunAction.ensureLabels, RunAction.getPRDetails n,
      RunAction.postReview n
        { status := ReviewStatus.approved,
          summary := excludedSummary (scopedPR j).2.length, findings := [] },
      RunAction.setCommitStatus (scopedPR j).1.head_sha CommitState.success
        "All files excluded — auto-approved"] ++
      mergeSteps j.autoMergeEnabled (scopedPR j).1 n := by
  unfold run
  rw [h]
  dsimp only
  rw [if_pos hf]

theorem run_some_err (j : RunInputs) (n : Nat) (e : String)
    (h : j.prNumber? = some n) (hf : ¬ (scopedPR j).1.files.length = 0)
    (hro : j.reviewOutcome = Except.error e) :
    run j = [RunAction.ensureLabels, RunAction.getPRDetails n,
      RunAction.setCommitStatus (scopedPR j).1.head_sha CommitState.pending
        "Review in progress...",
      RunAction.callReviewer,
      RunAction.setCommitStatus (scopedPR j).1.head_sha CommitState.error
        "Review failed unexpectedly",
      RunAction.setFailed ("PR review failed: " ++ e)] := by
  unfold run
  rw [h]
  dsimp only
  rw [if_neg hf, hro]
  rfl

theorem run_some_ok (j : RunInputs) (n : Nat) (raw : ReviewResult)
    (h : j.prNumber? = some n) (hf : ¬ (scopedPR j).1.files.length = 0)
    (hro : j.reviewOutcome = Except.ok raw) :
    run j = [RunAction.ensureLabels, RunAction.getPRDetails n,
      RunAction.setCommitStatus (scopedPR j).1.head_sha CommitState.pending
        "Review in progress...",
      RunAction.callReviewer] ++
      reviewedSteps j n (scopedPR j).1 (latestIsAutoFix j) raw := by
  unfold run
  rw [h]
  dsimp only
  rw [if_neg hf, hro]
  rfl

/-- C8: a failed push step (no resolvable head branch, or the git sequence
failing) makes `autoFixSuggestions` return `false`; a run whose auto-fix
attempt returned `false` produces, apart from the `autoFixSuggestions`
invocation itself, exactly the trace of a run with auto-fix disabled; and a
per-file failure never prevents the other file groups from being processed
(every group gets its read attempt). -/
theorem c8_push_failure (env : FixEnv) (s : List ReviewFinding)
    (i : RunInputs) :
    ((env.headRef? = none ∨ env.pushOk = false) →
      (autoFixSuggestions env s).1 = false) ∧
    (i.autoFixPushed = false →
      eraseAutoFix (run i) = run { i with autoFixEnabled := false }) ∧
    (∀ g ∈ fileGroups s, FixAction.readFile g.1 ∈ (autoFixSuggestions env s).2) := by
  refine ⟨?_, ?_, ?_⟩
  · intro hfail
    unfold autoFixSuggestions
    by_cases hs : s.length = 0
    · rw [if_pos hs]
    · rw [if_neg hs]
      dsimp only
      by_cases hg : (fileGroups s).length = 0
      · rw [if_pos hg]
      · rw [if_neg hg]
        by_cases hc : ((((fileGroups s).map (processGroup env))).filter
            Prod.fst).length = 0
        · rw [if_pos hc]
        · rw [if_neg hc]
          cases hhr : env.headRef? with
          | none => rfl
          | some ref =>
              rcases hfail with hfail | hfail
              · rw [hfail] at hhr
                exact absurd hhr (by simp)
              · rw [hfail]
                simp
  · intro hp
    generalize hj : ({ i with autoFixEnabled := false } : RunInputs) = j
    have hj1 : j.prNumber? = i.prNumber? := by rw [← hj]
    have hj2 : j.reviewOutcome = i.reviewOutcome := by rw [← hj]
    have hj3 : scopedPR j = scopedPR i := by rw [← hj]; rfl
    have hj4 : j.autoMergeEnabled = i.autoMergeEnabled := by rw [← hj]
    have hj5 : j.autoFixEnabled = false := by rw [← hj]
    cases hpn : i.prNumber? with
    | none =>
        rw [run_none i hpn, run_none j (by rw [hj1, hpn])]
        simp [eraseAutoFix, isCallAutoFix]
    | some n =>
        by_cases hf : (scopedPR i).1.files.length = 0
        · rw [run_some_empty i n hpn hf,
            run_some_empty j n (by rw [hj1, hpn]) (by rw [hj3]; exact hf)]
          rw [hj3, hj4]
          rw [eraseAutoFix_append]
          rw [show eraseAutoFix [RunAction.ensureLabels, RunAction.getPRDetails n,
              RunAction.postReview n
                { status := ReviewStatus.approved,
                  summary := excludedSummary (scopedPR i).2.length,
                  findings := [] },
              RunAction.setCommitStatus (scopedPR i).1.head_sha
                CommitState.success "All files excluded — auto-approved"] =
              [RunAction.ensureLabels, RunAction.getPRDetails n,
               RunAction.postReview n
                 { status := ReviewStatus.approved,
                   summary := excludedSummary (scopedPR i).2.length,
                   findings := [] },
               RunAction.setCommitStatus (scopedPR i).1.head_sha
                 CommitState.success "All files excluded — auto-approved"] from by
            simp [eraseAutoFix, isCallAutoFix]]
          rw [eraseAutoFix_mergeSteps]
        · cases hro : i.reviewOutcome with
          | error e =>
              rw [run_some_err i n e hpn hf hro,
                run_some_err j n e (by rw [hj1, hpn]) (by rw [hj3]; exact hf)
                  (by rw [hj2, hro])]
              rw [hj3]
              simp [eraseAutoFix, isCallAutoFix]
          | ok raw =>
              rw [run_some_ok i n raw hpn hf hro,
                run_some_ok j n raw (by rw [hj1, hpn]) (by rw [hj3]; exact hf)
                  (by rw [hj2, hro])]
              rw [hj3]
              rw [eraseAutoFix_append]
              rw [show eraseAutoFix [RunAction.ensureLabels,
                  RunAction.getPRDetails n,
                  RunAction.setCommitStatus (scopedPR i).1.head_sha
                    CommitState.pending "Review in progress...",
                  RunAction.callReviewer] =
                  [RunAction.ensureLabels, RunAction.getPRDetails n,
                   RunAction.setCommitStatus (scopedPR i).1.head_sha
                     CommitState.pending "Review in progress...",
                   RunAction.callReviewer] from by
                simp [eraseAutoFix, isCallAutoFix]]
              rw [eraseAutoFix_reviewedSteps i n (scopedPR i).1
                (latestIsAutoFix i) raw hp]
              rw [reviewedSteps_disabled j n (scopedPR i).1
                (latestIsAutoFix j) raw hj5]
              congr 1
              unfold postingSteps
              rw [hj4]
  · intro g hg
    have hgr : fileGroups s ≠ [] := by
      intro h
      rw [h] at hg
      exact absurd hg (List.not_mem_nil g)
    have hsne : ¬ s.length = 0 := by
      intro h
      have hnil : s = [] := List.length_eq_zero.mp h
      rw [hnil] at hg
      simp [fileGroups] at hg
    unfold autoFixSuggestions
    rw [if_neg hsne]
    dsimp only
    rw [if_neg (fun h => hgr (List.length_eq_zero.mp h))]
    have hmem : FixAction.readFile g.1 ∈
        (((fileGroups s).map (processGroup env)).map Prod.snd).flatten := by
      refine List.mem_flatten.mpr ⟨(processGroup env g).2, ?_,
        readFile_mem_processGroup env g⟩
      exact List.mem_map.mpr ⟨processGroup env g,
        List.mem_map.mpr ⟨g, hg, rfl⟩, rfl⟩
    by_cases hc : ((((fileGroups s).map (processGroup env))).filter
        Prod.fst).length = 0
    · rw [if_pos hc]
      exact hmem
    · rw [if_neg hc]
      cases hhr : env.headRef? with
      | none => exact hmem
      | some ref =>
          cases env.pushOk with
          | true => exact List.mem_append.mpr (Or.inl hmem)
          | false => exact List.mem_append.mpr (Or.inl hmem)

/-- C9: a file group whose read and model call both succeed is written only
when the fence-stripped output differs from the original after JavaScript
trimming on both sides; a trim-equal rewrite causes no write and does not
count as a changed file; and when the write happens, the written bytes are
the untrimmed fence-stripped output. -/
theorem c9_write_condition (env : FixEnv) (g : String × List ReviewFinding)
    (original fixed : String)
    (hr : env.read g.1 = Except.ok original)
    (hm : env.model g.1 = Except.ok (some fixed)) :
    (∀ p c, FixAction.writeFile p c ∈ (processGroup env g).2 →
      c = stripFences fixed ∧ jsTrim c ≠ jsTrim original) ∧
    (jsTrim (stripFences fixed) = jsTrim original →
      processGroup env g =
        (false, [FixAction.readFile g.1, FixAction.modelCall g.1])) ∧
    (fixed ≠ "" → jsTrim (stripFences fixed) ≠ jsTrim original →
      processGroup env g =
        (true, [FixAction.readFile g.1, FixAction.modelCall g.1,
          FixAction.writeFile g.1 (stripFences fixed)])) := by
  have hred : processGroup env g =
      (if (fixed == "") = true then
        ((false : Bool), [FixAction.readFile g.1, FixAction.modelCall g.1])
      else if (jsTrim (stripFences fixed) == jsTrim original) = true then
        ((false : Bool), [FixAction.readFile g.1, FixAction.modelCall g.1])
      else
        ((true : Bool), [FixAction.readFile g.1, FixAction.modelCall g.1,
          FixAction.writeFile g.1 (stripFences fixed)])) := by
    unfold processGroup
    rw [hr, hm]
  rw [hred]
  by_cases h0 : (fixed == "") = true
  · rw [if_pos h0]
    have hfe : fixed = "" := by simpa using h0
    refine ⟨?_, ?_, ?_⟩
    · intro p c hpc
      simp at hpc
    · intro _
      rfl
    · intro hne _
      exact absurd hfe hne
  · rw [if_neg h0]
    by_cases h2 : (jsTrim (stripFences fixed) == jsTrim original) = true
    · rw [if_pos h2]
      have heq : jsTrim (stripFences fixed) = jsTrim original := by
        simpa using h2
      refine ⟨?_, ?_, ?_⟩
      · intro p c hpc
        simp at hpc
      · intro _
        rfl
      · intro _ hneq
        exact absurd heq hneq
    · rw [if_neg h2]
      have hneq : jsTrim (stripFences fixed) ≠ jsTrim original := by
        simpa using h2
      refine ⟨?_, ?_, ?_⟩
      · intro p c hpc
        simp only [List.mem_cons, List.not_mem_nil, or_false] at hpc
        rcases hpc with h | h | h
        · exact absurd h (by simp)
        · exact absurd h (by simp)
        · obtain ⟨hp, hc⟩ : p = g.1 ∧ c = stripFences fixed := by
            simpa using h
          subst hc
          exact ⟨rfl, hneq⟩
      · intro heq
        exact absurd heq hneq
      · intro _ _
        rfl

/-- Witness for C7: a single suggestion without a fix leads to no action. -/
theorem c7_null_fix_inert_witness :
    (∀ f ∈ [findingNullFixW], f.suggested_fix = none) ∧
    autoFixSuggestions fixEnvW [findingNullFixW] = (false, []) :=
  ⟨by decide, (c7_null_fix_inert fixEnvW [findingNullFixW]).2 (by decide)⟩

/-- Witness for C8: an unresolvable head branch yields `false`, and the
concrete run with a failed auto-fix attempt matches the auto-fix-disabled
run up to the `callAutoFix` action. -/
theorem c8_push_failure_witness :
    (fixEnvNoHeadW.headRef? = none ∨ fixEnvNoHeadW.pushOk = false) ∧
    (autoFixSuggestions fixEnvNoHeadW [findingFixW]).1 = false ∧
    iW.autoFixPushed = false ∧
    eraseAutoFix (run iW) = run { iW with autoFixEnabled := false } := by
  have h := c8_push_failure fixEnvNoHeadW [findingFixW] iW
  exact ⟨Or.inl rfl, h.1 (Or.inl rfl), rfl, h.2.1 rfl⟩

/-- Witness for C9 at a concrete group whose model output differs from the
original. -/
theorem c9_write_condition_witness :
    ("fixed" : String) ≠ "" ∧
    jsTrim (stripFences "fixed") ≠ jsTrim "orig" ∧
    processGroup fixEnvW ("src/a.ts", [findingFixW]) =
      (true, [FixAction.readFile "src/a.ts", FixAction.modelCall "src/a.ts",
        FixAction.writeFile "src/a.ts" (stripFences "fixed")]) := by
  have h := c9_write_condition fixEnvW ("src/a.ts", [findingFixW]) "orig"
    "fixed" rfl rfl
  exact ⟨by decide, by decide, h.2.2 (by decide) (by decide)⟩

/-- C10: `postReview` first dismisses the prior bot reviews bearing the
sentinel marker (dismissal failures ignored, so the trace never depends on
the dismissal oracle); an `approved` result is posted with event `APPROVE`,
and when that call throws the same body is reposted as a `COMMENT`; a
`changes_requested` result is always posted with event `REQUEST_CHANGES`. -/
theorem c10_post_review (env : GhEnv) (result : ReviewResult) (body : String) :
    (result.status = ReviewStatus.approved → env.approveOk = true →
      postReview env result body =
        deleteExistingReviews env ++
          [GhAction.createReview ReviewEvent.APPROVE body]) ∧
    (result.status = ReviewStatus.approved → env.approveOk = false →
      postReview env result body =
        deleteExistingReviews env ++
          [GhAction.createReview ReviewEvent.APPROVE body,
           GhAction.createReview ReviewEvent.COMMENT body]) ∧
    (result.status = ReviewStatus.changes_requested →
      postReview env result body =
        deleteExistingReviews env ++
          [GhAction.createReview ReviewEvent.REQUEST_CHANGES body]) ∧
    (∀ d : Nat → Bool,
      postReview { env with dismissOk := d } result body =
        postReview env result body) ∧
    deleteExistingReviews env =
      GhAction.listReviews ::
        (env.reviews.filter (fun r => containsMarker r.body)).map
          (fun r => GhAction.dismissReview r.id) := by
  refine ⟨?_, ?_, ?_, ?_, rfl⟩
  · intro hst hok
    unfold postReview
    rw [hst]
    simp only [statusIsApproved, if_true, hok]
  · intro hst hok
    unfold postReview
    rw [hst]
    simp only [statusIsApproved, if_true, hok]
    rw [if_neg (by simp)]
  · intro hst
    unfold postReview
    rw [hst]
    simp only [statusIsApproved]
    rw [if_neg (by simp)]
  · intro d
    rfl

/-- Witness for C10: an `approved` result whose `APPROVE` call throws is
reposted as a `COMMENT` with the same body, after dismissing the marked
review only. -/
theorem c10_post_review_witness :
    approvedEmptyW.status = ReviewStatus.approved ∧
    ghEnvW.approveOk = false ∧
    postReview ghEnvW approvedEmptyW "body text" =
      deleteExistingReviews ghEnvW ++
        [GhAction.createReview ReviewEvent.APPROVE "body text",
         GhAction.createReview ReviewEvent.COMMENT "body text"] ∧
    deleteExistingReviews ghEnvW =
      [GhAction.listReviews, GhAction.dismissReview 11] := by
  refine ⟨rfl, rfl, (c10_post_review ghEnvW approvedEmptyW "body text").2.1
    rfl rfl, ?_⟩
  decide
